import Mathlib

/-!
Verification of the phtree red-black balancing engine
(src/lib/phtree.c and src/tools/include/linux/phtree.h).

Two embeddings are used.

1. An algebraic embedding for the tree algorithms: a node together with its
   subtrees is an inductive `Tree`, and the parent pointers of the C code are
   represented by a zipper context (`Path`): the list of ancestors from a node
   up to the root, each entry recording on which side the node hangs, the
   ancestor's color and id, and the sibling subtree.  Walking `ph_parent` in C
   corresponds exactly to popping one `PathE` entry; re-linking a child
   corresponds to rebuilding one `Tree.node`.  The spec (section 9) itself
   asks for the packed parent+color word to be modelled as explicit
   parent-reference-plus-color structure.

2. A pointer-level embedding (heap = Nat -> record) for the claims about the
   binary layout of `struct ph_node`, `ph_link_node`, `PH_EMPTY_NODE`,
   `ph_next`/`ph_prev` on empty nodes, and `ph_replace_node`.

`lib/phtree.c` includes `linux/phtree_augmented.h`, which is not among the
sources; the helpers declared there (`ph_red_parent`, `ph_set_parent_color`,
`__ph_rotate_set_parents`, `__ph_erase_augmented`, `____ph_erase_color`,
`__ph_change_child`, ...) are modelled from the spec where they are needed and
are marked as such in their doc comments.
-/

namespace Phtree

/-- Color of a node: the one-bit color packed into the parent word (spec section 3). -/
inductive Color : Type
  | red : Color
  | black : Color
deriving DecidableEq, Repr

/-- A node of the tree together with its subtrees.  Each node carries the id
(the caller record's address) of the node occupying that position. -/
inductive Tree : Type
  | nil : Tree
  | node (c : Color) (l : Tree) (x : Nat) (r : Tree) : Tree
deriving DecidableEq, Repr

/-- Which child slot of the parent a node occupies. -/
inductive Dir : Type
  | L : Dir
  | R : Dir
deriving DecidableEq, Repr

/-- One step of parent context: the focused subtree hangs on side `d` of the
parent node (color `c`, id `x`), whose other child is `sib`.  A list of these
is the chain of parent pointers from a node up to the root. -/
structure PathE : Type where
  d : Dir
  c : Color
  x : Nat
  sib : Tree
deriving DecidableEq, Repr

abbrev Path := List PathE

/-- Rebuild the whole tree from a focused subtree and its parent context. -/
def plug : Tree → Path → Tree
  | t, [] => t
  | t, ⟨.L, c, x, sib⟩ :: rest => plug (.node c t x sib) rest
  | t, ⟨.R, c, x, sib⟩ :: rest => plug (.node c sib x t) rest

/-- Is the root of the subtree a RED node? -/
def rootRed : Tree → Bool
  | .node .red _ _ _ => true
  | _ => false

/-- Invariant (b) of the spec: no RED node has a RED child. -/
def noRR : Tree → Bool
  | .nil => true
  | .node .black l _ r => noRR l && noRR r
  | .node .red l _ r => noRR l && noRR r && !rootRed l && !rootRed r

/-- Invariant (c) of the spec: the black height.  `some h` when every path
from the root to an absent child passes through the same number `h` of BLACK
nodes, `none` when two such paths disagree. -/
def bhOf : Tree → Option Nat
  | .nil => some 0
  | .node c l _ r =>
    match bhOf l, bhOf r with
    | some hl, some hr =>
      if hl = hr then some (match c with | .black => hl + 1 | .red => hl) else none
    | _, _ => none

/-- The number of BLACK nodes on each root-to-absent-child path, one list
entry per absent child, in left-to-right order. -/
def blackCounts : Tree → List Nat
  | .nil => [0]
  | .node c l _ r =>
    (blackCounts l ++ blackCounts r).map
      (fun k => k + (match c with | .black => 1 | .red => 0))

/-- All three red-black invariants of spec section 3 for a complete tree:
(a) the root, if present, is BLACK; (b) no RED node has a RED child;
(c) the black counts of all root-to-absent-child paths agree. -/
def RBroot (t : Tree) : Bool :=
  !rootRed t && noRR t && (bhOf t).isSome

/-- Is the head of the ancestor chain (the immediate parent) BLACK? -/
def headBlack : Path → Bool
  | ⟨_, .black, _, _⟩ :: _ => true
  | _ => false

/-- Validity of a parent context whose hole will receive a subtree of black
height `h`: sibling subtrees are well formed with matching black heights, a
RED ancestor has a BLACK sibling subtree and a BLACK parent (so it is not the
root), and black heights grow by one across each BLACK ancestor. -/
def pathOk : Path → Nat → Bool
  | [], _ => true
  | ⟨_, .black, _, sib⟩ :: rest, h =>
    bhOf sib == some h && noRR sib && pathOk rest (h + 1)
  | ⟨_, .red, _, sib⟩ :: rest, h =>
    bhOf sib == some h && noRR sib && !rootRed sib && headBlack rest && pathOk rest h

theorem rootRed_nil : rootRed .nil = false := rfl

theorem rootRed_black (l : Tree) (x : Nat) (r : Tree) :
    rootRed (.node .black l x r) = false := rfl

theorem rootRed_red (l : Tree) (x : Nat) (r : Tree) :
    rootRed (.node .red l x r) = true := rfl

theorem noRR_nil : noRR .nil = true := rfl

theorem bhOf_nil : bhOf .nil = some 0 := rfl

theorem bhOf_node (c : Color) (l : Tree) (x : Nat) (r : Tree) :
    bhOf (.node c l x r) =
      match bhOf l, bhOf r with
      | some hl, some hr =>
        if hl = hr then some (match c with | .black => hl + 1 | .red => hl) else none
      | _, _ => none := rfl

theorem noRR_black (l : Tree) (x : Nat) (r : Tree) :
    noRR (.node .black l x r) = (noRR l && noRR r) := rfl

theorem noRR_red (l : Tree) (x : Nat) (r : Tree) :
    noRR (.node .red l x r) = (noRR l && noRR r && !rootRed l && !rootRed r) := rfl

/-- If the black counts are consistent, every root-to-absent-child path has
exactly the common black height. -/
theorem blackCounts_eq_of_bhOf (t : Tree) (h : Nat) (hbh : bhOf t = some h) :
    ∀ k ∈ blackCounts t, k = h := by
  induction t generalizing h with
  | nil =>
    simp [bhOf] at hbh
    simp [blackCounts, hbh]
  | node c l x r ihl ihr =>
    intro k hk
    rw [bhOf_node] at hbh
    rcases hl : bhOf l with _ | hl' <;> rw [hl] at hbh
    · cases hbh
    rcases hr : bhOf r with _ | hr' <;> rw [hr] at hbh
    · cases hbh
    by_cases heq : hl' = hr'
    · subst heq
      simp only [if_pos rfl] at hbh
      simp only [blackCounts, List.mem_map, List.mem_append] at hk
      obtain ⟨k', hk', rfl⟩ := hk
      cases c with
      | black =>
        simp only [Option.some.injEq] at hbh
        rcases hk' with hk' | hk'
        · rw [ihl hl' hl k' hk']; simp at hbh ⊢; omega
        · rw [ihr hl' hr k' hk']; simp at hbh ⊢; omega
      | red =>
        simp only [Option.some.injEq] at hbh
        rcases hk' with hk' | hk'
        · rw [ihl hl' hl k' hk']; simp at hbh ⊢; omega
        · rw [ihr hl' hr k' hk']; simp at hbh ⊢; omega
    · simp [if_neg heq] at hbh

/-- `ph_set_parent_color(t, parent, ph_BLACK)` seen from the tree side: recolor
the root of a (possibly absent) subtree BLACK.  The C sites guard with
`if (tmp)`; on the absent subtree this is the identity. -/
def setBlack : Tree → Tree
  | .nil => .nil
  | .node _ l x r => .node .black l x r

theorem setBlack_of_not_red (t : Tree) (h : rootRed t = false) : setBlack t = t := by
  cases t with
  | nil => rfl
  | node c l x r => cases c <;> simp_all [rootRed, setBlack]

/-- Filling a valid context with a valid subtree of the demanded black height
gives a tree satisfying all three red-black invariants, provided a RED subtree
root is only put below a BLACK parent. -/
theorem plug_RB (p : Path) : ∀ (t : Tree) (h : Nat),
    pathOk p h = true → noRR t = true → bhOf t = some h →
    (rootRed t = true → headBlack p = true) → RBroot (plug t p) = true := by
  induction p with
  | nil =>
    intro t h _ hn hb hr
    have : rootRed t = false := by
      cases hrr : rootRed t with
      | false => rfl
      | true => exact absurd (hr hrr) (by simp [headBlack])
    simp [plug, RBroot, this, hn, hb]
  | cons pe rest ih =>
    intro t h hp hn hb hr
    obtain ⟨d, c, x, sib⟩ := pe
    cases c with
    | black =>
      simp only [pathOk, Bool.and_eq_true, beq_iff_eq] at hp
      obtain ⟨⟨hsb, hsn⟩, hrest⟩ := hp
      cases d with
      | L =>
        show RBroot (plug (.node .black t x sib) rest) = true
        refine ih (.node .black t x sib) (h + 1) hrest ?_ ?_ ?_
        · simp [noRR_black, hn, hsn]
        · simp [bhOf_node, hb, hsb]
        · intro hcon; simp [rootRed] at hcon
      | R =>
        show RBroot (plug (.node .black sib x t) rest) = true
        refine ih (.node .black sib x t) (h + 1) hrest ?_ ?_ ?_
        · simp [noRR_black, hn, hsn]
        · simp [bhOf_node, hb, hsb]
        · intro hcon; simp [rootRed] at hcon
    | red =>
      simp only [pathOk, Bool.and_eq_true, beq_iff_eq, Bool.not_eq_true'] at hp
      obtain ⟨⟨⟨⟨hsb, hsn⟩, hsr⟩, hhd⟩, hrest⟩ := hp
      have htr : rootRed t = false := by
        cases hrr : rootRed t with
        | false => rfl
        | true => exact absurd (hr hrr) (by simp [headBlack])
      cases d with
      | L =>
        show RBroot (plug (.node .red t x sib) rest) = true
        refine ih (.node .red t x sib) h hrest ?_ ?_ ?_
        · simp [noRR_red, hn, hsn, htr, hsr]
        · simp [bhOf_node, hb, hsb]
        · intro _; exact hhd
      | R =>
        show RBroot (plug (.node .red sib x t) rest) = true
        refine ih (.node .red sib x t) h hrest ?_ ?_ ?_
        · simp [noRR_red, hn, hsn, htr, hsr]
        · simp [bhOf_node, hb, hsb]
        · intro _; exact hhd

/-- `__ph_insert` (lib/phtree.c lines 22-158) on the zipper representation.
The focus `n` is the subtree rooted at the loop's `node` variable; the path is
its chain of parent pointers.  Arm by arm:
* no parent: `ph_set_parent_color(node, NULL, ph_BLACK); break` (lines 32-40);
* BLACK parent: `break` with the tree unchanged (lines 48-49);
* RED parent and no grandparent: the C dereferences `gparent == NULL`
  (line 53), which cannot be reached when the invariants held before the
  insert (a RED parent is never the root); modelled as the identity;
* parent on the left of the grandparent (lines 54-120): Case 1 when the uncle
  `gparent->ph_right` is RED (color flips, recurse at the grandparent), else
  Case 2 (left rotate at parent when the node is the parent's right child)
  falling into Case 3 (right rotate at gparent, `__ph_rotate_set_parents`
  gives the rotated-up parent the grandparent's old color and makes the
  grandparent RED); the `if (tmp) ph_set_parent_color(tmp, ..., ph_BLACK)`
  writes are the `setBlack` calls;
* the mirrored right-side branch (lines 121-156). -/
def ph_insert_fixup : Tree → Path → Tree
  | n, [] => setBlack n
  | n, ⟨pd, .black, px, psib⟩ :: rest => plug n (⟨pd, .black, px, psib⟩ :: rest)
  | n, [⟨pd, .red, px, psib⟩] => plug n [⟨pd, .red, px, psib⟩]
  | n, ⟨pd, .red, px, psib⟩ :: ⟨.L, gc, gx, gsib⟩ :: rest' =>
    match gsib with
    | .node .red ul ux ur =>
      -- Case 1: uncle and parent recolored BLACK, grandparent RED, recurse
      ph_insert_fixup
        (.node .red
          (match pd with
            | .L => Tree.node .black n px psib
            | .R => Tree.node .black psib px n)
          gx (.node .black ul ux ur)) rest'
    | uncle =>
      match pd, n with
      | .R, .node nc nl nx nr =>
        -- Case 2 (left rotate at parent) then Case 3 (right rotate at gparent)
        plug (.node gc (.node .red psib px (setBlack nl)) nx
               (.node .red (setBlack nr) gx uncle)) rest'
      | .L, n =>
        -- Case 3 alone
        plug (.node gc n px (.node .red (setBlack psib) gx uncle)) rest'
      | .R, .nil =>
        -- the focus is the inserted node, never absent; inert
        plug .nil (⟨.R, .red, px, psib⟩ :: ⟨.L, gc, gx, uncle⟩ :: rest')
  | n, ⟨pd, .red, px, psib⟩ :: ⟨.R, gc, gx, gsib⟩ :: rest' =>
    match gsib with
    | .node .red ul ux ur =>
      -- Case 1, mirrored
      ph_insert_fixup
        (.node .red (.node .black ul ux ur) gx
          (match pd with
            | .L => Tree.node .black n px psib
            | .R => Tree.node .black psib px n)) rest'
    | uncle =>
      match pd, n with
      | .L, .node nc nl nx nr =>
        -- Case 2 (right rotate at parent) then Case 3 (left rotate at gparent)
        plug (.node gc (.node .red uncle gx (setBlack nl)) nx
               (.node .red (setBlack nr) px psib)) rest'
      | .R, n =>
        -- Case 3 alone, mirrored
        plug (.node gc (.node .red uncle gx (setBlack psib)) px n) rest'
      | .L, .nil =>
        plug .nil (⟨.L, .red, px, psib⟩ :: ⟨.R, gc, gx, uncle⟩ :: rest')

theorem bhOf_red_inv {l r : Tree} {x : Nat} {h : Nat}
    (hb : bhOf (.node .red l x r) = some h) :
    bhOf l = some h ∧ bhOf r = some h := by
  rw [bhOf_node] at hb
  rcases hl : bhOf l with _ | hl' <;> rw [hl] at hb
  · cases hb
  rcases hr : bhOf r with _ | hr' <;> rw [hr] at hb
  · cases hb
  by_cases heq : hl' = hr'
  · subst heq
    simp at hb
    subst hb
    exact ⟨rfl, rfl⟩
  · simp [if_neg heq] at hb

theorem bhOf_black_inv {l r : Tree} {x : Nat} {h : Nat}
    (hb : bhOf (.node .black l x r) = some h) :
    ∃ h', h = h' + 1 ∧ bhOf l = some h' ∧ bhOf r = some h' := by
  rw [bhOf_node] at hb
  rcases hl : bhOf l with _ | hl' <;> rw [hl] at hb
  · cases hb
  rcases hr : bhOf r with _ | hr' <;> rw [hr] at hb
  · cases hb
  by_cases heq : hl' = hr'
  · subst heq
    simp at hb
    exact ⟨hl', hb.symm, rfl, rfl⟩
  · simp [if_neg heq] at hb

theorem noRR_red_inv {l r : Tree} {x : Nat}
    (hn : noRR (.node .red l x r) = true) :
    noRR l = true ∧ noRR r = true ∧ rootRed l = false ∧ rootRed r = false := by
  simp only [noRR_red, Bool.and_eq_true, Bool.not_eq_true'] at hn
  exact ⟨hn.1.1.1, hn.1.1.2, hn.1.2, hn.2⟩

theorem noRR_black_inv {l r : Tree} {x : Nat}
    (hn : noRR (.node .black l x r) = true) :
    noRR l = true ∧ noRR r = true := by
  simp only [noRR_black, Bool.and_eq_true] at hn
  exact hn

theorem rootRed_node_iff (c : Color) (l : Tree) (x : Nat) (r : Tree) :
    rootRed (.node c l x r) = true ↔ c = .red := by
  cases c <;> simp [rootRed]

theorem RBroot_setBlack (n : Tree) (h : Nat) (hr : rootRed n = true)
    (hn : noRR n = true) (hb : bhOf n = some h) : RBroot (setBlack n) = true := by
  cases n with
  | nil => simp [rootRed] at hr
  | node c l x r =>
    have hc : c = .red := (rootRed_node_iff c l x r).mp hr
    subst hc
    obtain ⟨hnl, hnr, _, _⟩ := noRR_red_inv hn
    obtain ⟨hbl, hbr⟩ := bhOf_red_inv hb
    simp [setBlack, RBroot, rootRed, noRR_black, hnl, hnr, bhOf_node, hbl, hbr]

/-- Invariant preservation for `__ph_insert`: starting from a RED focus whose
subtree is well formed inside a valid context, the fixup loop produces a full
red-black tree.  Strong induction on the depth, since Case 1 moves two levels
up the ancestor chain. -/
theorem ins_RB_aux : ∀ (k : Nat) (p : Path) (n : Tree) (h : Nat), p.length ≤ k →
    pathOk p h = true → rootRed n = true → noRR n = true → bhOf n = some h →
    RBroot (ph_insert_fixup n p) = true := by
  intro k
  induction k with
  | zero =>
    intro p n h hlen hp hr hn hb
    have hpnil : p = [] := List.eq_nil_of_length_eq_zero (Nat.le_zero.mp hlen)
    subst hpnil
    show RBroot (setBlack n) = true
    exact RBroot_setBlack n h hr hn hb
  | succ k ih =>
    intro p n h hlen hp hr hn hb
    match p with
    | [] =>
      show RBroot (setBlack n) = true
      exact RBroot_setBlack n h hr hn hb
    | [⟨pd, pc, px, psib⟩] =>
      cases pc with
      | black =>
        show RBroot (plug n [⟨pd, .black, px, psib⟩]) = true
        exact plug_RB _ n h hp hn hb (fun _ => by simp [headBlack])
      | red => simp [pathOk, headBlack] at hp
    | ⟨pd, pc, px, psib⟩ :: ⟨gd, gc, gx, gsib⟩ :: rest' =>
      cases pc with
      | black =>
        show RBroot (plug n (⟨pd, .black, px, psib⟩ :: ⟨gd, gc, gx, gsib⟩ :: rest')) = true
        exact plug_RB _ n h hp hn hb (fun _ => by simp [headBlack])
      | red =>
        cases gc with
        | red => simp [pathOk, headBlack] at hp
        | black =>
          simp only [pathOk, headBlack, Bool.and_eq_true, beq_iff_eq,
            Bool.not_eq_true'] at hp
          obtain ⟨⟨⟨⟨hpsb, hpsn⟩, hpsr⟩, -⟩, ⟨hgsb, hgsn⟩, hrest⟩ := hp
          have hlen' : rest'.length ≤ k := by
            simp only [List.length_cons] at hlen; omega
          cases gd with
          | L =>
            rcases gsib with _ | ⟨uc, ul, ux, ur⟩
            · -- uncle absent: Case 2 / Case 3
              have h0 : h = 0 := by simp [bhOf] at hgsb; omega
              subst h0
              cases pd with
              | L =>
                show RBroot (plug (.node .black n px
                    (.node .red (setBlack psib) gx .nil)) rest') = true
                rw [setBlack_of_not_red psib hpsr]
                refine plug_RB rest' _ 1 hrest ?_ ?_ (by simp [rootRed_black])
                · simp [noRR_black, noRR_red, hn, hpsn, hpsr, noRR_nil, rootRed_nil]
                · simp [bhOf_node, hb, hpsb, bhOf_nil]
              | R =>
                cases n with
                | nil => simp [rootRed_nil] at hr
                | node nc nl nx nr =>
                  have hc : nc = .red := (rootRed_node_iff nc nl nx nr).mp hr
                  subst hc
                  obtain ⟨hnl, hnr, hrl, hrr⟩ := noRR_red_inv hn
                  obtain ⟨hbl, hbr⟩ := bhOf_red_inv hb
                  show RBroot (plug (.node .black
                      (.node .red psib px (setBlack nl)) nx
                      (.node .red (setBlack nr) gx .nil)) rest') = true
                  rw [setBlack_of_not_red nl hrl, setBlack_of_not_red nr hrr]
                  refine plug_RB rest' _ 1 hrest ?_ ?_ (by simp [rootRed_black])
                  · simp [noRR_black, noRR_red, hpsn, hpsr, hnl, hnr, hrl, hrr,
                      noRR_nil, rootRed_nil]
                  · simp [bhOf_node, hpsb, hbl, hbr, bhOf_nil]
            · cases uc with
              | red =>
                -- Case 1: recurse at the grandparent
                obtain ⟨hul, hur, _, _⟩ := noRR_red_inv hgsn
                obtain ⟨hbul, hbur⟩ := bhOf_red_inv hgsb
                cases pd with
                | L =>
                  show RBroot (ph_insert_fixup (.node .red
                      (.node .black n px psib) gx (.node .black ul ux ur)) rest') = true
                  refine ih rest' _ (h + 1) hlen' hrest rfl ?_ ?_
                  · simp [noRR_red, noRR_black, hn, hpsn, hul, hur, rootRed_black]
                  · simp [bhOf_node, hb, hpsb, hbul, hbur]
                | R =>
                  show RBroot (ph_insert_fixup (.node .red
                      (.node .black psib px n) gx (.node .black ul ux ur)) rest') = true
                  refine ih rest' _ (h + 1) hlen' hrest rfl ?_ ?_
                  · simp [noRR_red, noRR_black, hn, hpsn, hul, hur, rootRed_black]
                  · simp [bhOf_node, hb, hpsb, hbul, hbur]
              | black =>
                cases pd with
                | L =>
                  show RBroot (plug (.node .black n px
                      (.node .red (setBlack psib) gx (.node .black ul ux ur))) rest') = true
                  rw [setBlack_of_not_red psib hpsr]
                  refine plug_RB rest' _ (h + 1) hrest ?_ ?_ (by simp [rootRed])
                  · obtain ⟨hul, hur⟩ := noRR_black_inv hgsn
                    simp [noRR_black, noRR_red, hn, hpsn, hpsr, hul, hur, rootRed_black]
                  · obtain ⟨h', rfl, hbul, hbur⟩ := bhOf_black_inv hgsb
                    simp [bhOf_node, hb, hpsb, hbul, hbur]
                | R =>
                  cases n with
                  | nil => simp [rootRed] at hr
                  | node nc nl nx nr =>
                    have hc : nc = .red := (rootRed_node_iff nc nl nx nr).mp hr
                    subst hc
                    obtain ⟨hnl, hnr, hrl, hrr⟩ := noRR_red_inv hn
                    obtain ⟨hbl, hbr⟩ := bhOf_red_inv hb
                    show RBroot (plug (.node .black
                        (.node .red psib px (setBlack nl)) nx
                        (.node .red (setBlack nr) gx (.node .black ul ux ur))) rest') = true
                    rw [setBlack_of_not_red nl hrl, setBlack_of_not_red nr hrr]
                    refine plug_RB rest' _ (h + 1) hrest ?_ ?_ (by simp [rootRed])
                    · obtain ⟨hul, hur⟩ := noRR_black_inv hgsn
                      simp [noRR_black, noRR_red, hpsn, hpsr, hnl, hnr, hrl, hrr,
                        hul, hur, rootRed_black]
                    · obtain ⟨h', rfl, hbul, hbur⟩ := bhOf_black_inv hgsb
                      simp [bhOf_node, hpsb, hbl, hbr, hbul, hbur]
          | R =>
            rcases gsib with _ | ⟨uc, ul, ux, ur⟩
            · have h0 : h = 0 := by simp [bhOf] at hgsb; omega
              subst h0
              cases pd with
              | R =>
                show RBroot (plug (.node .black
                    (.node .red .nil gx (setBlack psib)) px n) rest') = true
                rw [setBlack_of_not_red psib hpsr]
                refine plug_RB rest' _ 1 hrest ?_ ?_ (by simp [rootRed_black])
                · simp [noRR_black, noRR_red, hn, hpsn, hpsr, noRR_nil, rootRed_nil]
                · simp [bhOf_node, hb, hpsb, bhOf_nil]
              | L =>
                cases n with
                | nil => simp [rootRed_nil] at hr
                | node nc nl nx nr =>
                  have hc : nc = .red := (rootRed_node_iff nc nl nx nr).mp hr
                  subst hc
                  obtain ⟨hnl, hnr, hrl, hrr⟩ := noRR_red_inv hn
                  obtain ⟨hbl, hbr⟩ := bhOf_red_inv hb
                  show RBroot (plug (.node .black
                      (.node .red .nil gx (setBlack nl)) nx
                      (.node .red (setBlack nr) px psib)) rest') = true
                  rw [setBlack_of_not_red nl hrl, setBlack_of_not_red nr hrr]
                  refine plug_RB rest' _ 1 hrest ?_ ?_ (by simp [rootRed_black])
                  · simp [noRR_black, noRR_red, hpsn, hpsr, hnl, hnr, hrl, hrr,
                      noRR_nil, rootRed_nil]
                  · simp [bhOf_node, hpsb, hbl, hbr, bhOf_nil]
            · cases uc with
              | red =>
                obtain ⟨hul, hur, _, _⟩ := noRR_red_inv hgsn
                obtain ⟨hbul, hbur⟩ := bhOf_red_inv hgsb
                cases pd with
                | L =>
                  show RBroot (ph_insert_fixup (.node .red (.node .black ul ux ur) gx
                      (.node .black n px psib)) rest') = true
                  refine ih rest' _ (h + 1) hlen' hrest rfl ?_ ?_
                  · simp [noRR_red, noRR_black, hn, hpsn, hul, hur, rootRed_black]
                  · simp [bhOf_node, hb, hpsb, hbul, hbur]
                | R =>
                  show RBroot (ph_insert_fixup (.node .red (.node .black ul ux ur) gx
                      (.node .black psib px n)) rest') = true
                  refine ih rest' _ (h + 1) hlen' hrest rfl ?_ ?_
                  · simp [noRR_red, noRR_black, hn, hpsn, hul, hur, rootRed_black]
                  · simp [bhOf_node, hb, hpsb, hbul, hbur]
              | black =>
                cases pd with
                | R =>
                  show RBroot (plug (.node .black
                      (.node .red (.node .black ul ux ur) gx (setBlack psib)) px n) rest') = true
                  rw [setBlack_of_not_red psib hpsr]
                  refine plug_RB rest' _ (h + 1) hrest ?_ ?_ (by simp [rootRed])
                  · obtain ⟨hul, hur⟩ := noRR_black_inv hgsn
                    simp [noRR_black, noRR_red, hn, hpsn, hpsr, hul, hur, rootRed_black]
                  · obtain ⟨h', rfl, hbul, hbur⟩ := bhOf_black_inv hgsb
                    simp [bhOf_node, hb, hpsb, hbul, hbur]
                | L =>
                  cases n with
                  | nil => simp [rootRed] at hr
                  | node nc nl nx nr =>
                    have hc : nc = .red := (rootRed_node_iff nc nl nx nr).mp hr
                    subst hc
                    obtain ⟨hnl, hnr, hrl, hrr⟩ := noRR_red_inv hn
                    obtain ⟨hbl, hbr⟩ := bhOf_red_inv hb
                    show RBroot (plug (.node .black
                        (.node .red (.node .black ul ux ur) gx (setBlack nl)) nx
                        (.node .red (setBlack nr) px psib)) rest') = true
                    rw [setBlack_of_not_red nl hrl, setBlack_of_not_red nr hrr]
                    refine plug_RB rest' _ (h + 1) hrest ?_ ?_ (by simp [rootRed])
                    · obtain ⟨hul, hur⟩ := noRR_black_inv hgsn
                      simp [noRR_black, noRR_red, hpsn, hpsr, hnl, hnr, hrl, hrr,
                        hul, hur, rootRed_black]
                    · obtain ⟨h', rfl, hbul, hbur⟩ := bhOf_black_inv hgsb
                      simp [bhOf_node, hpsb, hbl, hbr, hbul, hbur]

/-- Invariant preservation for `__ph_insert`, packaged. -/
theorem ins_RB (p : Path) (n : Tree) (h : Nat)
    (hp : pathOk p h = true) (hr : rootRed n = true) (hn : noRR n = true)
    (hb : bhOf n = some h) : RBroot (ph_insert_fixup n p) = true :=
  ins_RB_aux p.length p n h (Nat.le_refl _) hp hr hn hb

/-- Walk from the root down a list of directions accumulating the parent
context: this is the caller-supplied search loop choosing the BST position
(the tree itself never compares keys, spec section 1). -/
def zipTo : Tree → List Dir → Path → Option (Tree × Path)
  | t, [], p => some (t, p)
  | .nil, _ :: _, _ => none
  | .node c l x r, .L :: ds, p => zipTo l ds (⟨.L, c, x, r⟩ :: p)
  | .node c l x r, .R :: ds, p => zipTo r ds (⟨.R, c, x, l⟩ :: p)

/-- A valid insert (spec sections 3 and 6): the caller links node `x` as a RED
leaf in the empty slot reached by `ds`, then invokes insert fixup.  `none`
when `ds` does not lead to an empty slot. -/
def insertAt (t : Tree) (ds : List Dir) (x : Nat) : Option Tree :=
  match zipTo t ds [] with
  | some (.nil, p) => some (ph_insert_fixup (.node .red .nil x .nil) p)
  | _ => none

/-- Walking into a child preserves context validity.  The invariant carried by
`zipTo`: the focus is well formed at the demanded height and a RED focus root
sits below a BLACK parent. -/
theorem zipTo_ok : ∀ (ds : List Dir) (t : Tree) (p : Path) (h : Nat),
    pathOk p h = true → noRR t = true → bhOf t = some h →
    (rootRed t = true → headBlack p = true) →
    ∀ t' p', zipTo t ds p = some (t', p') →
    ∃ h', pathOk p' h' = true ∧ noRR t' = true ∧ bhOf t' = some h' ∧
      (rootRed t' = true → headBlack p' = true) := by
  intro ds
  induction ds with
  | nil =>
    intro t p h hp hn hb hr t' p' hz
    simp only [zipTo, Option.some.injEq, Prod.mk.injEq] at hz
    obtain ⟨rfl, rfl⟩ := hz
    exact ⟨h, hp, hn, hb, hr⟩
  | cons d ds ih =>
    intro t p h hp hn hb hr t' p' hz
    cases t with
    | nil => simp [zipTo] at hz
    | node c l x r =>
      cases c with
      | black =>
        obtain ⟨hnl, hnr⟩ := noRR_black_inv hn
        obtain ⟨h', rfl, hbl, hbr⟩ := bhOf_black_inv hb
        cases d with
        | L =>
          refine ih l (⟨.L, .black, x, r⟩ :: p) h' ?_ hnl hbl ?_ t' p' hz
          · simp [pathOk, hbr, hnr, hp]
          · intro _; simp [headBlack]
        | R =>
          refine ih r (⟨.R, .black, x, l⟩ :: p) h' ?_ hnr hbr ?_ t' p' hz
          · simp [pathOk, hbl, hnl, hp]
          · intro _; simp [headBlack]
      | red =>
        obtain ⟨hnl, hnr, hrl, hrr⟩ := noRR_red_inv hn
        obtain ⟨hbl, hbr⟩ := bhOf_red_inv hb
        have hhd : headBlack p = true := hr rfl
        cases d with
        | L =>
          refine ih l (⟨.L, .red, x, r⟩ :: p) h ?_ hnl hbl ?_ t' p' hz
          · simp [pathOk, hbr, hnr, hrr, hhd, hp]
          · intro hcon; rw [hcon] at hrl; cases hrl
        | R =>
          refine ih r (⟨.R, .red, x, l⟩ :: p) h ?_ hnr hbr ?_ t' p' hz
          · simp [pathOk, hbl, hnl, hrl, hhd, hp]
          · intro hcon; rw [hcon] at hrr; cases hrr

/-- A valid insert on a red-black tree yields a red-black tree. -/
theorem insertAt_RB (t : Tree) (ds : List Dir) (x : Nat) (t' : Tree)
    (hrb : RBroot t = true) (hins : insertAt t ds x = some t') :
    RBroot t' = true := by
  simp only [RBroot, Bool.and_eq_true, Bool.not_eq_true'] at hrb
  obtain ⟨⟨hr, hn⟩, hb⟩ := hrb
  obtain ⟨h, hbh⟩ := Option.isSome_iff_exists.mp hb
  unfold insertAt at hins
  rcases hz : zipTo t ds [] with _ | ⟨t0, p0⟩
  · rw [hz] at hins; cases hins
  · rw [hz] at hins
    obtain ⟨h', hp', _, hb', -⟩ := zipTo_ok ds t [] h rfl hn hbh
      (fun hcon => by rw [hcon] at hr; cases hr) t0 p0 hz
    cases t0 with
    | node c l y r => cases hins
    | nil =>
      simp only [Option.some.injEq] at hins
      subst hins
      have h0 : h' = 0 := by simp [bhOf] at hb'; omega
      subst h0
      exact ins_RB p0 (.node .red .nil x .nil) 0 hp' rfl (by simp [noRR_red, rootRed_nil, noRR_nil]) (by simp [bhOf_node, bhOf_nil])

/-- Recolor the root of a subtree RED (the erase-fixup sibling color flip). -/
def setRed : Tree → Tree
  | .nil => .nil
  | .node _ l x r => .node .red l x r

/-- Modelled from the spec (section 4.3): one black-sibling step of
`____ph_erase_color`, with the black-height deficiency in the parent's LEFT
slot; `t` is the deficient subtree, `pc`/`px` the parent's color and id, `s`
the (BLACK) sibling.  Result: the rebuilt subtree and `true` when the fixup
terminates here, `false` when the deficiency moves up to the parent's
position ("recolor and recurse upward").
* far nephew RED: rotate at the parent, terminal;
* else near nephew RED: rotate at the sibling, then at the parent, terminal;
* both nephews BLACK: recolor the sibling RED; if the parent was RED it
  absorbs the deficiency (recolored BLACK), else recurse upward.
The sibling can be neither absent nor RED here (its black height is at least
one and the RED case is peeled off in `delFix`); those arms are inert. -/
def delBlackL (t : Tree) (pc : Color) (px : Nat) (s : Tree) : Tree × Bool :=
  match s with
  | .node .black sl sx sr =>
    match sr with
    | .node .red srl srx srr =>
      (.node pc (.node .black t px sl) sx (.node .black srl srx srr), true)
    | _ =>
      match sl with
      | .node .red sll slx slr =>
        (.node pc (.node .black t px sll) slx (.node .black slr sx sr), true)
      | _ => (.node .black t px (.node .red sl sx sr), pc == .red)
  | _ => (.node pc t px s, true)

/-- Modelled from the spec (section 4.3): the mirror image of `delBlackL`,
deficiency in the parent's RIGHT slot, sibling `s` on the left. -/
def delBlackR (t : Tree) (pc : Color) (px : Nat) (s : Tree) : Tree × Bool :=
  match s with
  | .node .black sl sx sr =>
    match sl with
    | .node .red sll slx slr =>
      (.node pc (.node .black sll slx slr) sx (.node .black sr px t), true)
    | _ =>
      match sr with
      | .node .red srl srx srr =>
        (.node pc (.node .black sl sx srl) srx (.node .black srr px t), true)
      | _ => (.node .black (.node .red sl sx sr) px t, pc == .red)
  | _ => (.node pc s px t, true)

/-- Modelled from the spec (section 4.3): `____ph_erase_color`, walking up
from the deficiency point.  `t` is the subtree one BLACK short of what its
slot demands.  A RED sibling is first rotated away (making the old near
nephew the new BLACK sibling under a now-RED parent, after which the
black-sibling cases are terminal); a BLACK sibling is handled by
`delBlackL`/`delBlackR`, recursing up the ancestor chain in the
"recolor and recurse upward" case. -/
def delFix : Tree → Path → Tree
  | t, [] => t
  | t, ⟨.L, _, px, .node .red sl sx sr⟩ :: rest =>
    plug (.node .black (delBlackL t .red px sl).1 sx sr) rest
  | t, ⟨.L, pc, px, s⟩ :: rest =>
    match delBlackL t pc px s with
    | (res, true) => plug res rest
    | (res, false) => delFix res rest
  | t, ⟨.R, _, px, .node .red sl sx sr⟩ :: rest =>
    plug (.node .black sl sx (delBlackR t .red px sr).1) rest
  | t, ⟨.R, pc, px, s⟩ :: rest =>
    match delBlackR t pc px s with
    | (res, true) => plug res rest
    | (res, false) => delFix res rest

/-- The id of the leftmost node: the in-order successor used by the
two-children case of erase is the leftmost node of the right subtree. -/
def minId : Tree → Nat
  | .nil => 0
  | .node _ .nil x _ => x
  | .node _ (.node lc ll lx lr) _ _ => minId (.node lc ll lx lr)

/-- Modelled from the spec (section 4.3): splice out the leftmost node of a
non-empty subtree (the physical removal of the in-order successor).  The
successor has no left child; its right child, if any, is promoted into its
place keeping the place's color; if the removed node was BLACK and had no
child, the resulting deficiency is repaired by `delFix`. -/
def eraseMin : Tree → Path → Tree
  | .nil, p => plug .nil p
  | .node cs .nil _ sr, p =>
    match sr with
    | .nil =>
      match cs with
      | .black => delFix .nil p
      | .red => plug .nil p
    | .node _ srl srx srr => plug (.node cs srl srx srr) p
  | .node cu (.node lc ll lx lr) ux ru, p =>
    eraseMin (.node lc ll lx lr) (⟨.L, cu, ux, ru⟩ :: p)

/-- Modelled from the spec (section 4.3): `ph_erase` of the node at the given
zipper position (`__ph_erase_augmented` followed, when the physically removed
node was BLACK and left a deficiency, by `____ph_erase_color`; both live in
the missing phtree_augmented.h).
* no children: remove; fixup if the node was BLACK;
* one child: promote the child into the node's place keeping the place's
  color (the child is a RED leaf whenever the invariants hold);
* two children: splice the in-order successor — the leftmost node of the
  right subtree — into the node's position (it takes the node's color and
  both its subtrees), and remove it from its old position via `eraseMin`. -/
def ph_erase_z (c : Color) (l : Tree) (x : Nat) (r : Tree) (p : Path) : Tree :=
  match l, r with
  | .nil, .nil =>
    match c with
    | .black => delFix .nil p
    | .red => plug .nil p
  | .nil, .node _ rl rx rr => plug (.node c rl rx rr) p
  | .node _ ll lx lr, .nil => plug (.node c ll lx lr) p
  | .node lc ll lx lr, .node rc rl rx rr =>
    eraseMin (.node rc rl rx rr)
      (⟨.R, c, minId (.node rc rl rx rr), .node lc ll lx lr⟩ :: p)

/-- A valid erase: the node to remove is designated by the directions from
the root, as the caller's lookup would. -/
def eraseAt (t : Tree) (ds : List Dir) : Option Tree :=
  match zipTo t ds [] with
  | some (.node c l x r, p) => some (ph_erase_z c l x r p)
  | _ => none

/-- The black-height contribution of a node of the given color. -/
def cval : Color → Nat
  | .red => 0
  | .black => 1

/-- What one black-sibling erase-fixup step produces, left-deficient case:
the result is well colored; on a non-terminal step the parent was BLACK and
the rebuilt subtree is still one BLACK short; on a terminal step the subtree
has the demanded black height and its root is RED only if the parent was. -/
theorem delBlackL_spec (t : Tree) (pc : Color) (px : Nat) (sl : Tree) (sx : Nat)
    (sr : Tree) (h : Nat) (hn : noRR t = true) (hb : bhOf t = some h)
    (hsn : noRR (.node .black sl sx sr) = true)
    (hsb : bhOf (.node .black sl sx sr) = some (h + 1)) :
    ∀ res term, delBlackL t pc px (.node .black sl sx sr) = (res, term) →
      noRR res = true ∧
      (term = false → pc = .black ∧ bhOf res = some (h + 1) ∧ rootRed res = false) ∧
      (term = true → bhOf res = some (h + 1 + cval pc) ∧
        (rootRed res = true → pc = .red)) := by
  intro res term hdb
  obtain ⟨hnsl, hnsr⟩ := noRR_black_inv hsn
  obtain ⟨h', hh', hbsl, hbsr⟩ := bhOf_black_inv hsb
  have hh : h' = h := by omega
  subst hh
  rcases sr with _ | ⟨src, srl, srx, srr⟩
  · -- far nephew absent (hence the sibling black height forces h = 0)
    have h0 : h' = 0 := by simp [bhOf] at hbsr; omega
    subst h0
    rcases sl with _ | ⟨slc, sll, slx, slr⟩
    · -- both nephews absent (BLACK): color flip
      simp only [delBlackL, Prod.mk.injEq] at hdb
      obtain ⟨rfl, rfl⟩ := hdb
      refine ⟨by simp [noRR_black, noRR_red, noRR_nil, rootRed_nil, hn], ?_, ?_⟩
      · intro hterm
        have hpc : pc = .black := by
          cases pc with
          | black => rfl
          | red => simp at hterm
        refine ⟨hpc, ?_, by simp [rootRed_black]⟩
        simp [bhOf_node, hb, bhOf_nil]
      · intro hterm
        have hpc : pc = .red := by
          cases pc with
          | red => rfl
          | black => simp [cval] at hterm
        subst hpc
        refine ⟨?_, fun _ => rfl⟩
        simp [bhOf_node, hb, bhOf_nil, cval]
    · cases slc with
      | red =>
        -- near nephew RED: rotate at the sibling then at the parent, terminal
        simp only [delBlackL, Prod.mk.injEq] at hdb
        obtain ⟨rfl, rfl⟩ := hdb
        obtain ⟨hn1, hn2, hr1, hr2⟩ := noRR_red_inv hnsl
        obtain ⟨hb1, hb2⟩ := bhOf_red_inv hbsl
        refine ⟨?_, fun hcon => Bool.noConfusion hcon, ?_⟩
        · cases pc <;>
            simp [noRR_black, noRR_red, noRR_nil, rootRed_black, hn, hn1, hn2]
        · intro _
          constructor
          · cases pc <;>
              simp [bhOf_node, hb, hb1, hb2, bhOf_nil, hbsr, cval]
          · intro hres
            cases pc with
            | red => rfl
            | black => rw [rootRed_black] at hres; cases hres
      | black =>
        -- both nephews BLACK: color flip
        simp only [delBlackL, Prod.mk.injEq] at hdb
        obtain ⟨rfl, rfl⟩ := hdb
        refine ⟨?_, ?_, ?_⟩
        · simp [noRR_black, noRR_red, noRR_nil, rootRed_black, rootRed_nil, hn,
            hnsl, hnsr]
        · intro hterm
          have hpc : pc = .black := by
            cases pc with
            | black => rfl
            | red => simp at hterm
          refine ⟨hpc, ?_, by simp [rootRed_black]⟩
          simp [bhOf_node, hb, hbsl, bhOf_nil]
        · intro hterm
          have hpc : pc = .red := by
            cases pc with
            | red => rfl
            | black => simp [cval] at hterm
          subst hpc
          refine ⟨?_, fun _ => rfl⟩
          simp [bhOf_node, hb, hbsl, bhOf_nil, cval]
  · cases src with
    | red =>
      -- far nephew RED: rotate at the parent, terminal
      simp only [delBlackL, Prod.mk.injEq] at hdb
      obtain ⟨rfl, rfl⟩ := hdb
      obtain ⟨hn1, hn2, hr1, hr2⟩ := noRR_red_inv hnsr
      obtain ⟨hb1, hb2⟩ := bhOf_red_inv hbsr
      refine ⟨?_, fun hcon => Bool.noConfusion hcon, ?_⟩
      · cases pc <;>
          simp [noRR_black, noRR_red, rootRed_black, hn, hnsl, hn1, hn2]
      · intro _
        constructor
        · cases pc <;>
            simp [bhOf_node, hb, hb1, hb2, hbsl, cval]
        · intro hres
          cases pc with
          | red => rfl
          | black => rw [rootRed_black] at hres; cases hres
    | black =>
      -- far nephew BLACK: look at the near nephew
      rcases sl with _ | ⟨slc, sll, slx, slr⟩
      · -- near absent: color flip (black height forces h = 0)
        have h0 : h' = 0 := by simp [bhOf] at hbsl; omega
        subst h0
        simp only [delBlackL, Prod.mk.injEq] at hdb
        obtain ⟨rfl, rfl⟩ := hdb
        refine ⟨?_, ?_, ?_⟩
        · simp [noRR_black, noRR_red, noRR_nil, rootRed_black, rootRed_nil, hn,
            hnsr]
        · intro hterm
          have hpc : pc = .black := by
            cases pc with
            | black => rfl
            | red => simp at hterm
          refine ⟨hpc, ?_, by simp [rootRed_black]⟩
          simp [bhOf_node, hb, hbsr, bhOf_nil]
        · intro hterm
          have hpc : pc = .red := by
            cases pc with
            | red => rfl
            | black => simp [cval] at hterm
          subst hpc
          refine ⟨?_, fun _ => rfl⟩
          simp [bhOf_node, hb, hbsr, bhOf_nil, cval]
      · cases slc with
        | red =>
          simp only [delBlackL, Prod.mk.injEq] at hdb
          obtain ⟨rfl, rfl⟩ := hdb
          obtain ⟨hn1, hn2, hr1, hr2⟩ := noRR_red_inv hnsl
          obtain ⟨hb1, hb2⟩ := bhOf_red_inv hbsl
          refine ⟨?_, fun hcon => Bool.noConfusion hcon, ?_⟩
          · cases pc <;>
              simp [noRR_black, noRR_red, rootRed_black, hn, hn1, hn2, hnsr]
          · intro _
            constructor
            · cases pc <;>
                simp [bhOf_node, hb, hb1, hb2, hbsr, cval]
            · intro hres
              cases pc with
              | red => rfl
              | black => rw [rootRed_black] at hres; cases hres
        | black =>
          simp only [delBlackL, Prod.mk.injEq] at hdb
          obtain ⟨rfl, rfl⟩ := hdb
          refine ⟨?_, ?_, ?_⟩
          · simp [noRR_black, noRR_red, rootRed_black, hn, hnsl, hnsr]
          · intro hterm
            have hpc : pc = .black := by
              cases pc with
              | black => rfl
              | red => simp at hterm
            refine ⟨hpc, ?_, by simp [rootRed_black]⟩
            simp [bhOf_node, hb, hbsl, hbsr]
          · intro hterm
            have hpc : pc = .red := by
              cases pc with
              | red => rfl
              | black => simp [cval] at hterm
            subst hpc
            refine ⟨?_, fun _ => rfl⟩
            simp [bhOf_node, hb, hbsl, hbsr, cval]

/-- Left-right mirror of a tree, used to transport the left-deficient fixup
analysis to the mirrored cases of the C code. -/
def mirrorT : Tree → Tree
  | .nil => .nil
  | .node c l x r => .node c (mirrorT r) x (mirrorT l)

theorem mirrorT_mirrorT (t : Tree) : mirrorT (mirrorT t) = t := by
  induction t with
  | nil => rfl
  | node c l x r ihl ihr => simp [mirrorT, ihl, ihr]

theorem rootRed_mirrorT (t : Tree) : rootRed (mirrorT t) = rootRed t := by
  cases t with
  | nil => rfl
  | node c l x r => cases c <;> rfl

theorem noRR_mirrorT (t : Tree) : noRR (mirrorT t) = noRR t := by
  induction t with
  | nil => rfl
  | node c l x r ihl ihr =>
    cases c with
    | black =>
      show (noRR (mirrorT r) && noRR (mirrorT l)) = (noRR l && noRR r)
      rw [ihl, ihr, Bool.and_comm]
    | red =>
      show (noRR (mirrorT r) && noRR (mirrorT l) && !rootRed (mirrorT r) &&
        !rootRed (mirrorT l)) = (noRR l && noRR r && !rootRed l && !rootRed r)
      rw [ihl, ihr, rootRed_mirrorT, rootRed_mirrorT]
      cases noRR l <;> cases noRR r <;> cases rootRed l <;> cases rootRed r <;> rfl

theorem bhOf_mirrorT (t : Tree) : bhOf (mirrorT t) = bhOf t := by
  induction t with
  | nil => rfl
  | node c l x r ihl ihr =>
    show bhOf (.node c (mirrorT r) x (mirrorT l)) = bhOf (.node c l x r)
    rw [bhOf_node, bhOf_node, ihl, ihr]
    rcases bhOf l with _ | hl <;> rcases bhOf r with _ | hr <;> simp
    by_cases heq : hl = hr
    · subst heq; simp
    · simp [if_neg heq, if_neg (Ne.symm heq)]

/-- `delBlackR` is the mirror image of `delBlackL`. -/
theorem delBlackR_eq_mirror (t : Tree) (pc : Color) (px : Nat) (s : Tree) :
    delBlackR t pc px s =
      (mirrorT (delBlackL (mirrorT t) pc px (mirrorT s)).1,
       (delBlackL (mirrorT t) pc px (mirrorT s)).2) := by
  rcases s with _ | ⟨sc, sl, sx, sr⟩
  · simp [delBlackR, delBlackL, mirrorT, mirrorT_mirrorT]
  cases sc with
  | red => simp [delBlackR, delBlackL, mirrorT, mirrorT_mirrorT]
  | black =>
    rcases sl with _ | ⟨slc, sll, slx, slr⟩
    · rcases sr with _ | ⟨src, srl, srx, srr⟩
      · simp [delBlackR, delBlackL, mirrorT, mirrorT_mirrorT]
      · cases src <;> simp [delBlackR, delBlackL, mirrorT, mirrorT_mirrorT]
    · cases slc with
      | red => simp [delBlackR, delBlackL, mirrorT, mirrorT_mirrorT]
      | black =>
        rcases sr with _ | ⟨src, srl, srx, srr⟩
        · simp [delBlackR, delBlackL, mirrorT, mirrorT_mirrorT]
        · cases src <;> simp [delBlackR, delBlackL, mirrorT, mirrorT_mirrorT]

/-- Mirror image of `delBlackL_spec` for the right-deficient case. -/
theorem delBlackR_spec (t : Tree) (pc : Color) (px : Nat) (sl : Tree) (sx : Nat)
    (sr : Tree) (h : Nat) (hn : noRR t = true) (hb : bhOf t = some h)
    (hsn : noRR (.node .black sl sx sr) = true)
    (hsb : bhOf (.node .black sl sx sr) = some (h + 1)) :
    ∀ res term, delBlackR t pc px (.node .black sl sx sr) = (res, term) →
      noRR res = true ∧
      (term = false → pc = .black ∧ bhOf res = some (h + 1) ∧ rootRed res = false) ∧
      (term = true → bhOf res = some (h + 1 + cval pc) ∧
        (rootRed res = true → pc = .red)) := by
  intro res term hdb
  rw [delBlackR_eq_mirror] at hdb
  have hmn : noRR (mirrorT t) = true := by rw [noRR_mirrorT]; exact hn
  have hmb : bhOf (mirrorT t) = some h := by rw [bhOf_mirrorT]; exact hb
  have hms : mirrorT (.node .black sl sx sr) =
      .node .black (mirrorT sr) sx (mirrorT sl) := rfl
  have hmsn : noRR (.node .black (mirrorT sr) sx (mirrorT sl)) = true := by
    rw [← hms, noRR_mirrorT]; exact hsn
  have hmsb : bhOf (.node .black (mirrorT sr) sx (mirrorT sl)) = some (h + 1) := by
    rw [← hms, bhOf_mirrorT]; exact hsb
  rw [hms] at hdb
  rcases hL : delBlackL (mirrorT t) pc px (.node .black (mirrorT sr) sx (mirrorT sl))
    with ⟨res0, term0⟩
  rw [hL] at hdb
  simp only [Prod.mk.injEq] at hdb
  obtain ⟨hres, hterm⟩ := hdb
  subst hres; subst hterm
  obtain ⟨H1, H2, H3⟩ := delBlackL_spec (mirrorT t) pc px (mirrorT sr) sx
    (mirrorT sl) h hmn hmb hmsn hmsb res0 term0 hL
  refine ⟨by rw [noRR_mirrorT]; exact H1, ?_, ?_⟩
  · intro hf
    obtain ⟨hpc, hbb, hrr⟩ := H2 hf
    exact ⟨hpc, by rw [bhOf_mirrorT]; exact hbb, by rw [rootRed_mirrorT]; exact hrr⟩
  · intro ht
    obtain ⟨hbb, hrr⟩ := H3 ht
    exact ⟨by rw [bhOf_mirrorT]; exact hbb,
      fun hc => hrr (by rw [rootRed_mirrorT] at hc; exact hc)⟩

/-- Invariant preservation for the erase fixup: a subtree one BLACK short of
what its (valid) context demands is repaired into a full red-black tree. -/
theorem delFix_RB : ∀ (p : Path) (t : Tree) (h : Nat),
    pathOk p (h + 1) = true → noRR t = true → bhOf t = some h →
    rootRed t = false → RBroot (delFix t p) = true := by
  intro p
  induction p with
  | nil =>
    intro t h hp hn hb hr
    show RBroot t = true
    simp [RBroot, hr, hn, hb]
  | cons pe rest ih =>
    intro t h hp hn hb hr
    obtain ⟨d, pc, px, s⟩ := pe
    cases d with
    | L =>
      rcases s with _ | ⟨sc, sl, sx, sr⟩
      · -- absent sibling is impossible: its black height would be h + 1 >= 1
        cases pc <;> simp [pathOk, bhOf_nil] at hp
      cases sc with
      | red =>
        -- sibling RED forces a BLACK parent
        cases pc with
        | red => simp [pathOk, rootRed_red] at hp
        | black =>
          simp only [pathOk, Bool.and_eq_true, beq_iff_eq] at hp
          obtain ⟨⟨hsb, hsn⟩, hrest⟩ := hp
          obtain ⟨hbsl, hbsr⟩ := bhOf_red_inv hsb
          obtain ⟨hnsl, hnsr, hrsl, hrsr⟩ := noRR_red_inv hsn
          rcases sl with _ | ⟨slc, sll, slx, slr⟩
          · simp [bhOf] at hbsl
          cases slc with
          | red => rw [rootRed_red] at hrsl; cases hrsl
          | black =>
            show RBroot (plug (.node .black
              (delBlackL t .red px (.node .black sll slx slr)).1 sx sr) rest) = true
            rcases hdl : delBlackL t .red px (.node .black sll slx slr) with ⟨res, term⟩
            obtain ⟨H1, H2, H3⟩ :=
              delBlackL_spec t .red px sll slx slr h hn hb hnsl hbsl res term hdl
            cases term with
            | false => obtain ⟨hpc, -, -⟩ := H2 rfl; cases hpc
            | true =>
              obtain ⟨hbres, -⟩ := H3 rfl
              refine plug_RB rest _ (h + 2) hrest ?_ ?_ (by simp [rootRed_black])
              · simp [noRR_black, H1, hnsr]
              · have : h + 1 + cval Color.red = h + 1 := by simp [cval]
                rw [this] at hbres
                simp [bhOf_node, hbres, hbsr]
      | black =>
        cases pc with
        | black =>
          simp only [pathOk, Bool.and_eq_true, beq_iff_eq] at hp
          obtain ⟨⟨hsb, hsn⟩, hrest⟩ := hp
          show RBroot (match delBlackL t .black px (.node .black sl sx sr) with
            | (res, true) => plug res rest
            | (res, false) => delFix res rest) = true
          rcases hdl : delBlackL t .black px (.node .black sl sx sr) with ⟨res, term⟩
          obtain ⟨H1, H2, H3⟩ :=
            delBlackL_spec t .black px sl sx sr h hn hb hsn hsb res term hdl
          cases term with
          | true =>
            obtain ⟨hbres, hrres⟩ := H3 rfl
            show RBroot (plug res rest) = true
            refine plug_RB rest _ (h + 2) hrest H1 ?_ ?_
            · have : h + 1 + cval Color.black = h + 2 := by simp [cval]
              rw [this] at hbres
              exact hbres
            · intro hc; exact absurd (hrres hc) (by decide)
          | false =>
            obtain ⟨-, hbres, hrres⟩ := H2 rfl
            show RBroot (delFix res rest) = true
            exact ih res (h + 1) hrest H1 hbres hrres
        | red =>
          simp only [pathOk, Bool.and_eq_true, beq_iff_eq, Bool.not_eq_true'] at hp
          obtain ⟨⟨⟨⟨hsb, hsn⟩, -⟩, hhd⟩, hrest⟩ := hp
          show RBroot (match delBlackL t .red px (.node .black sl sx sr) with
            | (res, true) => plug res rest
            | (res, false) => delFix res rest) = true
          rcases hdl : delBlackL t .red px (.node .black sl sx sr) with ⟨res, term⟩
          obtain ⟨H1, H2, H3⟩ :=
            delBlackL_spec t .red px sl sx sr h hn hb hsn hsb res term hdl
          cases term with
          | false => obtain ⟨hpc, -, -⟩ := H2 rfl; cases hpc
          | true =>
            obtain ⟨hbres, -⟩ := H3 rfl
            show RBroot (plug res rest) = true
            refine plug_RB rest _ (h + 1) hrest H1 ?_ (fun _ => hhd)
            have : h + 1 + cval Color.red = h + 1 := by simp [cval]
            rw [this] at hbres
            exact hbres
    | R =>
      rcases s with _ | ⟨sc, sl, sx, sr⟩
      · cases pc <;> simp [pathOk, bhOf_nil] at hp
      cases sc with
      | red =>
        cases pc with
        | red => simp [pathOk, rootRed_red] at hp
        | black =>
          simp only [pathOk, Bool.and_eq_true, beq_iff_eq] at hp
          obtain ⟨⟨hsb, hsn⟩, hrest⟩ := hp
          obtain ⟨hbsl, hbsr⟩ := bhOf_red_inv hsb
          obtain ⟨hnsl, hnsr, hrsl, hrsr⟩ := noRR_red_inv hsn
          rcases sr with _ | ⟨src, srl, srx, srr⟩
          · simp [bhOf] at hbsr
          cases src with
          | red => rw [rootRed_red] at hrsr; cases hrsr
          | black =>
            show RBroot (plug (.node .black sl sx
              (delBlackR t .red px (.node .black srl srx srr)).1) rest) = true
            rcases hdl : delBlackR t .red px (.node .black srl srx srr) with ⟨res, term⟩
            obtain ⟨H1, H2, H3⟩ :=
              delBlackR_spec t .red px srl srx srr h hn hb hnsr hbsr res term hdl
            cases term with
            | false => obtain ⟨hpc, -, -⟩ := H2 rfl; cases hpc
            | true =>
              obtain ⟨hbres, -⟩ := H3 rfl
              refine plug_RB rest _ (h + 2) hrest ?_ ?_ (by simp [rootRed_black])
              · simp [noRR_black, H1, hnsl]
              · have : h + 1 + cval Color.red = h + 1 := by simp [cval]
                rw [this] at hbres
                simp [bhOf_node, hbres, hbsl]
      | black =>
        cases pc with
        | black =>
          simp only [pathOk, Bool.and_eq_true, beq_iff_eq] at hp
          obtain ⟨⟨hsb, hsn⟩, hrest⟩ := hp
          show RBroot (match delBlackR t .black px (.node .black sl sx sr) with
            | (res, true) => plug res rest
            | (res, false) => delFix res rest) = true
          rcases hdl : delBlackR t .black px (.node .black sl sx sr) with ⟨res, term⟩
          obtain ⟨H1, H2, H3⟩ :=
            delBlackR_spec t .black px sl sx sr h hn hb hsn hsb res term hdl
          cases term with
          | true =>
            obtain ⟨hbres, hrres⟩ := H3 rfl
            show RBroot (plug res rest) = true
            refine plug_RB rest _ (h + 2) hrest H1 ?_ ?_
            · have : h + 1 + cval Color.black = h + 2 := by simp [cval]
              rw [this] at hbres
              exact hbres
            · intro hc; exact absurd (hrres hc) (by decide)
          | false =>
            obtain ⟨-, hbres, hrres⟩ := H2 rfl
            show RBroot (delFix res rest) = true
            exact ih res (h + 1) hrest H1 hbres hrres
        | red =>
          simp only [pathOk, Bool.and_eq_true, beq_iff_eq, Bool.not_eq_true'] at hp
          obtain ⟨⟨⟨⟨hsb, hsn⟩, -⟩, hhd⟩, hrest⟩ := hp
          show RBroot (match delBlackR t .red px (.node .black sl sx sr) with
            | (res, true) => plug res rest
            | (res, false) => delFix res rest) = true
          rcases hdl : delBlackR t .red px (.node .black sl sx sr) with ⟨res, term⟩
          obtain ⟨H1, H2, H3⟩ :=
            delBlackR_spec t .red px sl sx sr h hn hb hsn hsb res term hdl
          cases term with
          | false => obtain ⟨hpc, -, -⟩ := H2 rfl; cases hpc
          | true =>
            obtain ⟨hbres, -⟩ := H3 rfl
            show RBroot (plug res rest) = true
            refine plug_RB rest _ (h + 1) hrest H1 ?_ (fun _ => hhd)
            have : h + 1 + cval Color.red = h + 1 := by simp [cval]
            rw [this] at hbres
            exact hbres

/-- Removing the leftmost node of a valid non-empty subtree in a valid
context (the physical removal of the in-order successor) yields a red-black
tree. -/
theorem eraseMin_RB : ∀ (u : Tree) (p : Path) (h : Nat),
    pathOk p h = true → noRR u = true → bhOf u = some h →
    (rootRed u = true → headBlack p = true) → u ≠ .nil →
    RBroot (eraseMin u p) = true := by
  intro u
  induction u with
  | nil => intro p h _ _ _ _ hne; exact absurd rfl hne
  | node cu lu ux ru ihl ihr =>
    intro p h hp hn hb hr _
    rcases lu with _ | ⟨lc, ll, lx, lr⟩
    · -- the leftmost node: splice it out
      rcases ru with _ | ⟨rc, rl, rx, rr⟩
      · cases cu with
        | black =>
          have h1 : h = 1 := by simp [bhOf] at hb; omega
          subst h1
          show RBroot (delFix .nil p) = true
          exact delFix_RB p .nil 0 hp noRR_nil bhOf_nil rootRed_nil
        | red =>
          have h0 : h = 0 := by simp [bhOf] at hb; omega
          subst h0
          show RBroot (plug .nil p) = true
          exact plug_RB p .nil 0 hp noRR_nil bhOf_nil
            (fun hc => by rw [rootRed_nil] at hc; cases hc)
      · cases cu with
        | red =>
          -- a RED node cannot have exactly one child
          obtain ⟨hbl, hbr⟩ := bhOf_red_inv hb
          obtain ⟨-, -, -, hrr⟩ := noRR_red_inv hn
          cases rc with
          | red => rw [rootRed_red] at hrr; cases hrr
          | black =>
            obtain ⟨h', hcon, -, -⟩ := bhOf_black_inv hbr
            have : h = 0 := by simp [bhOf] at hbl; omega
            omega
        | black =>
          obtain ⟨h', hh, hbl, hbr⟩ := bhOf_black_inv hb
          have h'0 : h' = 0 := by simp [bhOf] at hbl; omega
          subst h'0
          obtain ⟨-, hnr⟩ := noRR_black_inv hn
          cases rc with
          | black =>
            obtain ⟨h'', hcon, -, -⟩ := bhOf_black_inv hbr
            omega
          | red =>
            obtain ⟨hbrl, hbrr⟩ := bhOf_red_inv hbr
            obtain ⟨hnrl, hnrr, -, -⟩ := noRR_red_inv hnr
            show RBroot (plug (.node .black rl rx rr) p) = true
            subst hh
            refine plug_RB p _ 1 hp ?_ ?_ (by simp [rootRed_black])
            · simp [noRR_black, hnrl, hnrr]
            · simp [bhOf_node, hbrl, hbrr]
    · -- keep descending left
      cases cu with
      | black =>
        obtain ⟨h', hh, hbl, hbr⟩ := bhOf_black_inv hb
        obtain ⟨hnl, hnr⟩ := noRR_black_inv hn
        subst hh
        show RBroot (eraseMin (.node lc ll lx lr)
          (⟨.L, .black, ux, ru⟩ :: p)) = true
        refine ihl (⟨.L, .black, ux, ru⟩ :: p) h' ?_ hnl hbl ?_ (by intro hc; cases hc)
        · simp [pathOk, hbr, hnr, hp]
        · intro _; simp [headBlack]
      | red =>
        obtain ⟨hbl, hbr⟩ := bhOf_red_inv hb
        obtain ⟨hnl, hnr, hrl, hrr⟩ := noRR_red_inv hn
        have hhd : headBlack p = true := hr rfl
        show RBroot (eraseMin (.node lc ll lx lr)
          (⟨.L, .red, ux, ru⟩ :: p)) = true
        refine ihl (⟨.L, .red, ux, ru⟩ :: p) h ?_ hnl hbl ?_ (by intro hc; cases hc)
        · simp [pathOk, hbr, hnr, hrr, hhd, hp]
        · intro hc; rw [hc] at hrl; cases hrl

/-- `ph_erase` (modelled from the spec) on a valid node position yields a
red-black tree. -/
theorem erase_RB (c : Color) (l : Tree) (x : Nat) (r : Tree) (p : Path) (h : Nat)
    (hp : pathOk p h = true) (hn : noRR (.node c l x r) = true)
    (hb : bhOf (.node c l x r) = some h)
    (hr : rootRed (.node c l x r) = true → headBlack p = true) :
    RBroot (ph_erase_z c l x r p) = true := by
  rcases l with _ | ⟨lc, ll, lx, lr⟩
  · rcases r with _ | ⟨rc, rl, rx, rr⟩
    · -- no children
      cases c with
      | black =>
        have h1 : h = 1 := by simp [bhOf] at hb; omega
        subst h1
        show RBroot (delFix .nil p) = true
        exact delFix_RB p .nil 0 hp noRR_nil bhOf_nil rootRed_nil
      | red =>
        have h0 : h = 0 := by simp [bhOf] at hb; omega
        subst h0
        show RBroot (plug .nil p) = true
        exact plug_RB p .nil 0 hp noRR_nil bhOf_nil
          (fun hc => by rw [rootRed_nil] at hc; cases hc)
    · -- only a right child: promote it with this position's color
      cases c with
      | red =>
        obtain ⟨hbl, hbr⟩ := bhOf_red_inv hb
        obtain ⟨-, -, -, hrr⟩ := noRR_red_inv hn
        cases rc with
        | red => rw [rootRed_red] at hrr; cases hrr
        | black =>
          obtain ⟨h', hcon, -, -⟩ := bhOf_black_inv hbr
          have : h = 0 := by simp [bhOf] at hbl; omega
          omega
      | black =>
        obtain ⟨h', hh, hbl, hbr⟩ := bhOf_black_inv hb
        have h'0 : h' = 0 := by simp [bhOf] at hbl; omega
        subst h'0
        obtain ⟨-, hnr⟩ := noRR_black_inv hn
        cases rc with
        | black =>
          obtain ⟨h'', hcon, -, -⟩ := bhOf_black_inv hbr
          omega
        | red =>
          obtain ⟨hbrl, hbrr⟩ := bhOf_red_inv hbr
          obtain ⟨hnrl, hnrr, -, -⟩ := noRR_red_inv hnr
          show RBroot (plug (.node .black rl rx rr) p) = true
          subst hh
          refine plug_RB p _ 1 hp ?_ ?_ (by simp [rootRed_black])
          · simp [noRR_black, hnrl, hnrr]
          · simp [bhOf_node, hbrl, hbrr]
  · rcases r with _ | ⟨rc, rl, rx, rr⟩
    · -- only a left child: promote it with this position's color
      cases c with
      | red =>
        obtain ⟨hbl, hbr⟩ := bhOf_red_inv hb
        obtain ⟨-, -, hrl, -⟩ := noRR_red_inv hn
        cases lc with
        | red => rw [rootRed_red] at hrl; cases hrl
        | black =>
          obtain ⟨h', hcon, -, -⟩ := bhOf_black_inv hbl
          have : h = 0 := by simp [bhOf] at hbr; omega
          omega
      | black =>
        obtain ⟨h', hh, hbl, hbr⟩ := bhOf_black_inv hb
        have h'0 : h' = 0 := by simp [bhOf] at hbr; omega
        subst h'0
        obtain ⟨hnl, -⟩ := noRR_black_inv hn
        cases lc with
        | black =>
          obtain ⟨h'', hcon, -, -⟩ := bhOf_black_inv hbl
          omega
        | red =>
          obtain ⟨hbll, hblr⟩ := bhOf_red_inv hbl
          obtain ⟨hnll, hnlr, -, -⟩ := noRR_red_inv hnl
          show RBroot (plug (.node .black ll lx lr) p) = true
          subst hh
          refine plug_RB p _ 1 hp ?_ ?_ (by simp [rootRed_black])
          · simp [noRR_black, hnll, hnlr]
          · simp [bhOf_node, hbll, hblr]
    · -- two children: splice in the in-order successor
      show RBroot (eraseMin (.node rc rl rx rr)
        (⟨.R, c, minId (.node rc rl rx rr), .node lc ll lx lr⟩ :: p)) = true
      cases c with
      | black =>
        obtain ⟨h', hh, hbl, hbr⟩ := bhOf_black_inv hb
        obtain ⟨hnl, hnr⟩ := noRR_black_inv hn
        subst hh
        refine eraseMin_RB _ _ h' ?_ hnr hbr ?_ (by intro hc; cases hc)
        · simp [pathOk, hbl, hnl, hp]
        · intro _; simp [headBlack]
      | red =>
        obtain ⟨hbl, hbr⟩ := bhOf_red_inv hb
        obtain ⟨hnl, hnr, hrl, hrr⟩ := noRR_red_inv hn
        have hhd : headBlack p = true := hr rfl
        refine eraseMin_RB _ _ h ?_ hnr hbr ?_ (by intro hc; cases hc)
        · simp [pathOk, hbl, hnl, hrl, hhd, hp]
        · intro hc; rw [hc] at hrr; cases hrr

/-- An erase at a valid position of a red-black tree yields a red-black tree. -/
theorem eraseAt_RB (t : Tree) (ds : List Dir) (t' : Tree)
    (hrb : RBroot t = true) (hdel : eraseAt t ds = some t') :
    RBroot t' = true := by
  simp only [RBroot, Bool.and_eq_true, Bool.not_eq_true'] at hrb
  obtain ⟨⟨hr, hn⟩, hb⟩ := hrb
  obtain ⟨h, hbh⟩ := Option.isSome_iff_exists.mp hb
  unfold eraseAt at hdel
  rcases hz : zipTo t ds [] with _ | ⟨t0, p0⟩
  · rw [hz] at hdel; cases hdel
  · rw [hz] at hdel
    obtain ⟨h', hp', hn', hb', hr'⟩ := zipTo_ok ds t [] h rfl hn hbh
      (fun hcon => by rw [hcon] at hr; cases hr) t0 p0 hz
    cases t0 with
    | nil => cases hdel
    | node c l y r =>
      simp only [Option.some.injEq] at hdel
      subst hdel
      exact erase_RB c l y r p0 h' hp' hn' hb' hr'

/-- One caller operation: a valid insert of a fresh node at an empty slot, or
an erase of the node at a position (both designated by direction lists, as
the caller's key-comparison loop would). -/
inductive Op : Type
  | ins (ds : List Dir) (x : Nat) : Op
  | del (ds : List Dir) : Op
deriving DecidableEq, Repr

def applyOp (t : Tree) : Op → Option Tree
  | .ins ds x => insertAt t ds x
  | .del ds => eraseAt t ds

/-- Run a sequence of operations from a starting tree; `none` as soon as an
operation is invalid. -/
def applyOps : Tree → List Op → Option Tree
  | t, [] => some t
  | t, op :: ops =>
    match applyOp t op with
    | some t' => applyOps t' ops
    | none => none

theorem applyOps_RB : ∀ (ops : List Op) (t0 t : Tree),
    RBroot t0 = true → applyOps t0 ops = some t → RBroot t = true := by
  intro ops
  induction ops with
  | nil =>
    intro t0 t h0 hrun
    simp only [applyOps, Option.some.injEq] at hrun
    subst hrun
    exact h0
  | cons op ops ih =>
    intro t0 t h0 hrun
    unfold applyOps at hrun
    rcases hap : applyOp t0 op with _ | t1
    · rw [hap] at hrun; cases hrun
    · rw [hap] at hrun
      refine ih t1 t ?_ hrun
      cases op with
      | ins ds x => exact insertAt_RB t0 ds x t1 h0 hap
      | del ds => exact eraseAt_RB t0 ds t1 h0 hap

/-- C1: after every finite sequence of valid insert (link as a RED leaf at an
empty slot followed by insert fixup) and erase operations starting from the
empty tree, the resulting tree satisfies all three red-black invariants: the
root, if present, is BLACK; no RED node has a RED child; and every path from
the root to an absent child passes through the same number of BLACK nodes. -/
theorem claim_C1_rb_invariants (ops : List Op) (t : Tree)
    (hrun : applyOps .nil ops = some t) :
    rootRed t = false ∧ noRR t = true ∧
      ∃ h, bhOf t = some h ∧ ∀ k ∈ blackCounts t, k = h := by
  have hrb : RBroot t = true := applyOps_RB ops .nil t (by decide) hrun
  simp only [RBroot, Bool.and_eq_true, Bool.not_eq_true'] at hrb
  obtain ⟨⟨hr, hn⟩, hb⟩ := hrb
  obtain ⟨h, hbh⟩ := Option.isSome_iff_exists.mp hb
  exact ⟨hr, hn, h, hbh, blackCounts_eq_of_bhOf t h hbh⟩

/-- Witness for C1: a concrete sequence of seven inserts and two erases (one
removing an interior node with two children, one removing the root). -/
theorem claim_C1_witness :
    rootRed (.node .black
        (.node .black (.node .red .nil 1 .nil) 3 .nil) 5
        (.node .black .nil 6 (.node .red .nil 7 .nil)) : Tree) = false ∧
      noRR (.node .black
        (.node .black (.node .red .nil 1 .nil) 3 .nil) 5
        (.node .black .nil 6 (.node .red .nil 7 .nil)) : Tree) = true ∧
      ∃ h, bhOf (.node .black
        (.node .black (.node .red .nil 1 .nil) 3 .nil) 5
        (.node .black .nil 6 (.node .red .nil 7 .nil)) : Tree) = some h ∧
        ∀ k ∈ blackCounts (.node .black
          (.node .black (.node .red .nil 1 .nil) 3 .nil) 5
          (.node .black .nil 6 (.node .red .nil 7 .nil)) : Tree), k = h :=
  claim_C1_rb_invariants
    [.ins [] 4, .ins [.L] 2, .ins [.R] 6, .ins [.L, .L] 1, .ins [.L, .R] 3,
     .ins [.R, .R] 7, .ins [.R, .L] 5, .del [.L], .del []]
    (.node .black
      (.node .black (.node .red .nil 1 .nil) 3 .nil) 5
      (.node .black .nil 6 (.node .red .nil 7 .nil)))
    (by decide)

/-- The insert-fixup case analysis exactly as the specification words it
(section 4.2), written independently of the C code, for the refinement claim:
no parent — recolor the node BLACK, terminal; BLACK parent — terminal with no
change; RED parent and RED uncle — recolor parent and uncle BLACK and
grandparent RED, repeat at the grandparent; RED parent and non-RED uncle —
rotate at the parent when the node is the inner grandchild (colors carried),
then rotate at the grandparent recoloring the former parent BLACK and the
former grandparent RED, terminal; mirrored left/right.  (The RED-parent-at-
the-root configuration, which the spec asserts cannot arise when the
invariants held before the insert, is left unchanged.) -/
def ph_insert_fixup_spec : Tree → Path → Tree
  | n, [] => setBlack n
  | n, ⟨pd, .black, px, psib⟩ :: rest => plug n (⟨pd, .black, px, psib⟩ :: rest)
  | n, [⟨pd, .red, px, psib⟩] => plug n [⟨pd, .red, px, psib⟩]
  | n, ⟨pd, .red, px, psib⟩ :: ⟨.L, gc, gx, gsib⟩ :: rest' =>
    match gsib with
    | .node .red ul ux ur =>
      ph_insert_fixup_spec
        (.node .red
          (match pd with
            | .L => Tree.node .black n px psib
            | .R => Tree.node .black psib px n)
          gx (.node .black ul ux ur)) rest'
    | uncle =>
      match pd, n with
      | .R, .node _ nl nx nr =>
        plug (.node .black (.node .red psib px nl) nx (.node .red nr gx uncle)) rest'
      | .L, n => plug (.node .black n px (.node .red psib gx uncle)) rest'
      | .R, .nil => plug .nil (⟨.R, .red, px, psib⟩ :: ⟨.L, gc, gx, uncle⟩ :: rest')
  | n, ⟨pd, .red, px, psib⟩ :: ⟨.R, gc, gx, gsib⟩ :: rest' =>
    match gsib with
    | .node .red ul ux ur =>
      ph_insert_fixup_spec
        (.node .red (.node .black ul ux ur) gx
          (match pd with
            | .L => Tree.node .black n px psib
            | .R => Tree.node .black psib px n)) rest'
    | uncle =>
      match pd, n with
      | .L, .node _ nl nx nr =>
        plug (.node .black (.node .red uncle gx nl) nx (.node .red nr px psib)) rest'
      | .R, n => plug (.node .black (.node .red uncle gx psib) px n) rest'
      | .L, .nil => plug .nil (⟨.L, .red, px, psib⟩ :: ⟨.R, gc, gx, uncle⟩ :: rest')

/-- On every configuration reachable when the red-black invariants held
before the insert, the C fixup coincides with the specification's case
analysis.  (Outside those configurations they differ: the C code additionally
recolors already-BLACK subtree roots and copies the grandparent's color
instead of writing BLACK.) -/
theorem ins_refines_aux : ∀ (k : Nat) (p : Path) (n : Tree) (h : Nat),
    p.length ≤ k →
    pathOk p h = true → rootRed n = true → noRR n = true → bhOf n = some h →
    ph_insert_fixup n p = ph_insert_fixup_spec n p := by
  intro k
  induction k with
  | zero =>
    intro p n h hlen hp hr hn hb
    have hpnil : p = [] := List.eq_nil_of_length_eq_zero (Nat.le_zero.mp hlen)
    subst hpnil
    rfl
  | succ k ih =>
    intro p n h hlen hp hr hn hb
    match p with
    | [] => rfl
    | [⟨pd, pc, px, psib⟩] =>
      cases pc with
      | black => rfl
      | red => simp [pathOk, headBlack] at hp
    | ⟨pd, pc, px, psib⟩ :: ⟨gd, gc, gx, gsib⟩ :: rest' =>
      cases pc with
      | black => rfl
      | red =>
        cases gc with
        | red => simp [pathOk, headBlack] at hp
        | black =>
          simp only [pathOk, headBlack, Bool.and_eq_true, beq_iff_eq,
            Bool.not_eq_true'] at hp
          obtain ⟨⟨⟨⟨hpsb, hpsn⟩, hpsr⟩, -⟩, ⟨hgsb, hgsn⟩, hrest⟩ := hp
          have hlen' : rest'.length ≤ k := by
            simp only [List.length_cons] at hlen; omega
          cases gd with
          | L =>
            rcases gsib with _ | ⟨uc, ul, ux, ur⟩
            · cases pd with
              | L =>
                show plug (.node .black n px
                    (.node .red (setBlack psib) gx .nil)) rest' =
                  plug (.node .black n px (.node .red psib gx .nil)) rest'
                rw [setBlack_of_not_red psib hpsr]
              | R =>
                cases n with
                | nil => simp [rootRed_nil] at hr
                | node nc nl nx nr =>
                  have hc : nc = .red := (rootRed_node_iff nc nl nx nr).mp hr
                  subst hc
                  obtain ⟨-, -, hrl, hrr⟩ := noRR_red_inv hn
                  show plug (.node .black
                      (.node .red psib px (setBlack nl)) nx
                      (.node .red (setBlack nr) gx .nil)) rest' =
                    plug (.node .black (.node .red psib px nl) nx
                      (.node .red nr gx .nil)) rest'
                  rw [setBlack_of_not_red nl hrl, setBlack_of_not_red nr hrr]
            · cases uc with
              | red =>
                obtain ⟨hul, hur, -, -⟩ := noRR_red_inv hgsn
                obtain ⟨hbul, hbur⟩ := bhOf_red_inv hgsb
                cases pd with
                | L =>
                  show ph_insert_fixup (.node .red (.node .black n px psib) gx
                      (.node .black ul ux ur)) rest' =
                    ph_insert_fixup_spec (.node .red (.node .black n px psib) gx
                      (.node .black ul ux ur)) rest'
                  refine ih rest' _ (h + 1) hlen' hrest rfl ?_ ?_
                  · simp [noRR_red, noRR_black, hn, hpsn, hul, hur, rootRed_black]
                  · simp [bhOf_node, hb, hpsb, hbul, hbur]
                | R =>
                  show ph_insert_fixup (.node .red (.node .black psib px n) gx
                      (.node .black ul ux ur)) rest' =
                    ph_insert_fixup_spec (.node .red (.node .black psib px n) gx
                      (.node .black ul ux ur)) rest'
                  refine ih rest' _ (h + 1) hlen' hrest rfl ?_ ?_
                  · simp [noRR_red, noRR_black, hn, hpsn, hul, hur, rootRed_black]
                  · simp [bhOf_node, hb, hpsb, hbul, hbur]
              | black =>
                cases pd with
                | L =>
                  show plug (.node .black n px
                      (.node .red (setBlack psib) gx (.node .black ul ux ur))) rest' =
                    plug (.node .black n px
                      (.node .red psib gx (.node .black ul ux ur))) rest'
                  rw [setBlack_of_not_red psib hpsr]
                | R =>
                  cases n with
                  | nil => simp [rootRed_nil] at hr
                  | node nc nl nx nr =>
                    have hc : nc = .red := (rootRed_node_iff nc nl nx nr).mp hr
                    subst hc
                    obtain ⟨-, -, hrl, hrr⟩ := noRR_red_inv hn
                    show plug (.node .black
                        (.node .red psib px (setBlack nl)) nx
                        (.node .red (setBlack nr) gx (.node .black ul ux ur))) rest' =
                      plug (.node .black (.node .red psib px nl) nx
                        (.node .red nr gx (.node .black ul ux ur))) rest'
                    rw [setBlack_of_not_red nl hrl, setBlack_of_not_red nr hrr]
          | R =>
            rcases gsib with _ | ⟨uc, ul, ux, ur⟩
            · cases pd with
              | R =>
                show plug (.node .black
                    (.node .red .nil gx (setBlack psib)) px n) rest' =
                  plug (.node .black (.node .red .nil gx psib) px n) rest'
                rw [setBlack_of_not_red psib hpsr]
              | L =>
                cases n with
                | nil => simp [rootRed_nil] at hr
                | node nc nl nx nr =>
                  have hc : nc = .red := (rootRed_node_iff nc nl nx nr).mp hr
                  subst hc
                  obtain ⟨-, -, hrl, hrr⟩ := noRR_red_inv hn
                  show plug (.node .black
                      (.node .red .nil gx (setBlack nl)) nx
                      (.node .red (setBlack nr) px psib)) rest' =
                    plug (.node .black (.node .red .nil gx nl) nx
                      (.node .red nr px psib)) rest'
                  rw [setBlack_of_not_red nl hrl, setBlack_of_not_red nr hrr]
            · cases uc with
              | red =>
                obtain ⟨hul, hur, -, -⟩ := noRR_red_inv hgsn
                obtain ⟨hbul, hbur⟩ := bhOf_red_inv hgsb
                cases pd with
                | L =>
                  show ph_insert_fixup (.node .red (.node .black ul ux ur) gx
                      (.node .black n px psib)) rest' =
                    ph_insert_fixup_spec (.node .red (.node .black ul ux ur) gx
                      (.node .black n px psib)) rest'
                  refine ih rest' _ (h + 1) hlen' hrest rfl ?_ ?_
                  · simp [noRR_red, noRR_black, hn, hpsn, hul, hur, rootRed_black]
                  · simp [bhOf_node, hb, hpsb, hbul, hbur]
                | R =>
                  show ph_insert_fixup (.node .red (.node .black ul ux ur) gx
                      (.node .black psib px n)) rest' =
                    ph_insert_fixup_spec (.node .red (.node .black ul ux ur) gx
                      (.node .black psib px n)) rest'
                  refine ih rest' _ (h + 1) hlen' hrest rfl ?_ ?_
                  · simp [noRR_red, noRR_black, hn, hpsn, hul, hur, rootRed_black]
                  · simp [bhOf_node, hb, hpsb, hbul, hbur]
              | black =>
                cases pd with
                | R =>
                  show plug (.node .black
                      (.node .red (.node .black ul ux ur) gx (setBlack psib)) px n) rest' =
                    plug (.node .black
                      (.node .red (.node .black ul ux ur) gx psib) px n) rest'
                  rw [setBlack_of_not_red psib hpsr]
                | L =>
                  cases n with
                  | nil => simp [rootRed_nil] at hr
                  | node nc nl nx nr =>
                    have hc : nc = .red := (rootRed_node_iff nc nl nx nr).mp hr
                    subst hc
                    obtain ⟨-, -, hrl, hrr⟩ := noRR_red_inv hn
                    show plug (.node .black
                        (.node .red (.node .black ul ux ur) gx (setBlack nl)) nx
                        (.node .red (setBlack nr) px psib)) rest' =
                      plug (.node .black
                        (.node .red (.node .black ul ux ur) gx nl) nx
                        (.node .red nr px psib)) rest'
                    rw [setBlack_of_not_red nl hrl, setBlack_of_not_red nr hrr]

/-- C4: whenever the tree satisfied the red-black invariants before the
insert (captured by a valid ancestor context and a well-formed RED focus,
which covers the freshly linked RED leaf), the C insert fixup behaves exactly
as the specified case analysis. -/
theorem claim_C4_insert_fixup_cases (p : Path) (n : Tree) (h : Nat)
    (hp : pathOk p h = true) (hr : rootRed n = true) (hn : noRR n = true)
    (hb : bhOf n = some h) :
    ph_insert_fixup n p = ph_insert_fixup_spec n p :=
  ins_refines_aux p.length p n h (Nat.le_refl _) hp hr hn hb

/-- Witness for C4: a freshly linked RED leaf under a RED parent with an
absent uncle — the inner-grandchild double-rotation case. -/
theorem claim_C4_witness :
    ph_insert_fixup (.node .red .nil 5 .nil)
        [⟨.R, .red, 3, .nil⟩, ⟨.L, .black, 10, .nil⟩] =
      ph_insert_fixup_spec (.node .red .nil 5 .nil)
        [⟨.R, .red, 3, .nil⟩, ⟨.L, .black, 10, .nil⟩] :=
  claim_C4_insert_fixup_cases
    [⟨.R, .red, 3, .nil⟩, ⟨.L, .black, 10, .nil⟩]
    (.node .red .nil 5 .nil) 0 (by decide) rfl (by decide) (by decide)

/-- The ids of the linked nodes in ascending caller-defined (BST) order. -/
def inorderT : Tree → List Nat
  | .nil => []
  | .node _ l x r => inorderT l ++ x :: inorderT r

/-- Number of linked nodes. -/
def sizeT : Tree → Nat
  | .nil => 0
  | .node _ l _ r => sizeT l + sizeT r + 1

/-- A location: the current node (its subtree) plus its parent context. -/
abbrev Loc := Tree × Path

/-- The `while (n->ph_left) n = n->ph_left` descent of `ph_first`
(lib/phtree.c lines 216-217), carried out on the zipper. -/
def descendLeft : Tree → Path → Loc
  | .node c (.node lc ll lx lr) x r, p =>
    descendLeft (.node lc ll lx lr) (⟨.L, c, x, r⟩ :: p)
  | t, p => (t, p)

/-- `ph_first` (lib/phtree.c lines 209-220): NULL on the empty tree, else the
leftmost node. -/
def ph_first_z : Tree → Option Loc
  | .nil => none
  | .node c l x r => some (descendLeft (.node c l x r) [])

/-- The `while (n->ph_right) n = n->ph_right` descent of `ph_last`
(lib/phtree.c lines 229-230). -/
def descendRight : Tree → Path → Loc
  | .node c l x (.node rc rl rx rr), p =>
    descendRight (.node rc rl rx rr) (⟨.R, c, x, l⟩ :: p)
  | t, p => (t, p)

/-- `ph_last` (lib/phtree.c lines 222-233). -/
def ph_last_z : Tree → Option Loc
  | .nil => none
  | .node c l x r => some (descendRight (.node c l x r) [])

/-- The ascent loop of `ph_next` (lib/phtree.c lines 260-263): climb while the
current node is its parent's right child; the first ancestor reached through a
left edge is the successor, absent if the root is passed. -/
def climbNext : Tree → Path → Option Loc
  | _, [] => none
  | t, ⟨.R, c, x, sib⟩ :: rest => climbNext (.node c sib x t) rest
  | t, ⟨.L, c, x, sib⟩ :: rest => some (.node c t x sib, rest)

/-- `ph_next` (lib/phtree.c lines 235-265) at a linked position: with a right
child, the right subtree's leftmost node; otherwise climb.  (The
`ph_EMPTY_NODE` guard concerns unlinked nodes, which have no zipper position;
it is covered by the pointer-level model below.) -/
def ph_next_z : Loc → Option Loc
  | (.node c l x (.node rc rl rx rr), p) =>
    some (descendLeft (.node rc rl rx rr) (⟨.R, c, x, l⟩ :: p))
  | (t, p) => climbNext t p

/-- The ascent loop of `ph_prev` (lib/phtree.c lines 289-292). -/
def climbPrev : Tree → Path → Option Loc
  | _, [] => none
  | t, ⟨.L, c, x, sib⟩ :: rest => climbPrev (.node c t x sib) rest
  | t, ⟨.R, c, x, sib⟩ :: rest => some (.node c sib x t, rest)

/-- `ph_prev` (lib/phtree.c lines 267-294), the mirror of `ph_next`. -/
def ph_prev_z : Loc → Option Loc
  | (.node c (.node lc ll lx lr) x r, p) =>
    some (descendRight (.node lc ll lx lr) (⟨.L, c, x, r⟩ :: p))
  | (t, p) => climbPrev t p

/-- The id at a location. -/
def idOf : Tree → Nat
  | .nil => 0
  | .node _ _ x _ => x

/-- Iterate `ph_next` from a location, collecting the visited ids. -/
def visitNext : Nat → Option Loc → List Nat
  | 0, _ => []
  | _ + 1, none => []
  | fuel + 1, some loc => idOf loc.1 :: visitNext fuel (ph_next_z loc)

/-- Iterate `ph_prev` from a location, collecting the visited ids. -/
def visitPrev : Nat → Option Loc → List Nat
  | 0, _ => []
  | _ + 1, none => []
  | fuel + 1, some loc => idOf loc.1 :: visitPrev fuel (ph_prev_z loc)

/-- The ids an in-order forward iteration still has to visit strictly after
the current node, read off the context: for each ancestor reached through a
left edge, the ancestor itself and then its right subtree. -/
def restList : Path → List Nat
  | [] => []
  | ⟨.L, _, x, sib⟩ :: rest => x :: (inorderT sib ++ restList rest)
  | ⟨.R, _, _, _⟩ :: rest => restList rest

theorem descendLeft_spec : ∀ (t : Tree) (p : Path), t ≠ .nil →
    ∃ c x r p', descendLeft t p = (.node c .nil x r, p') ∧
      x :: (inorderT r ++ restList p') = inorderT t ++ restList p := by
  intro t
  induction t with
  | nil => intro p h; exact absurd rfl h
  | node c l x r ihl _ =>
    intro p _
    rcases l with _ | ⟨lc, ll, lx, lr⟩
    · exact ⟨c, x, r, p, rfl, by simp [inorderT]⟩
    · obtain ⟨c', x', r', p', heq, hlist⟩ :=
        ihl (⟨.L, c, x, r⟩ :: p) (by intro hc; cases hc)
      refine ⟨c', x', r', p', heq, ?_⟩
      rw [hlist]
      simp [restList, inorderT]

theorem climbNext_none : ∀ (p : Path) (t : Tree),
    climbNext t p = none → restList p = [] := by
  intro p
  induction p with
  | nil => intro t _; rfl
  | cons pe rest ih =>
    intro t hc
    obtain ⟨d, c, x, sib⟩ := pe
    cases d with
    | L => simp [climbNext] at hc
    | R => exact ih _ hc

theorem climbNext_some : ∀ (p : Path) (t : Tree) (t2 : Tree) (p2 : Path),
    climbNext t p = some (t2, p2) →
    ∃ c2 l2 x2 r2, t2 = .node c2 l2 x2 r2 ∧
      restList p = x2 :: (inorderT r2 ++ restList p2) := by
  intro p
  induction p with
  | nil => intro t t2 p2 hc; simp [climbNext] at hc
  | cons pe rest ih =>
    intro t t2 p2 hc
    obtain ⟨d, c, x, sib⟩ := pe
    cases d with
    | L =>
      simp only [climbNext, Option.some.injEq, Prod.mk.injEq] at hc
      obtain ⟨rfl, rfl⟩ := hc
      exact ⟨c, t, x, sib, rfl, rfl⟩
    | R => exact ih _ t2 p2 hc

theorem visitNext_spec : ∀ (fuel : Nat) (c : Color) (l : Tree) (x : Nat)
    (r : Tree) (p : Path), (inorderT r ++ restList p).length < fuel →
    visitNext fuel (some (.node c l x r, p)) = x :: (inorderT r ++ restList p) := by
  intro fuel
  induction fuel with
  | zero => intro c l x r p hlt; omega
  | succ fuel ih =>
    intro c l x r p hlt
    show (x :: visitNext fuel (ph_next_z (.node c l x r, p))) =
      x :: (inorderT r ++ restList p)
    rcases r with _ | ⟨rc, rl, rx, rr⟩
    · show (x :: visitNext fuel (climbNext (.node c l x .nil) p)) =
        x :: (inorderT .nil ++ restList p)
      rcases hc : climbNext (.node c l x .nil) p with _ | ⟨t2, p2⟩
      · have : restList p = [] := climbNext_none p _ hc
        cases fuel with
        | zero => simp [visitNext, this, inorderT]
        | succ fuel => simp [visitNext, this, inorderT]
      · obtain ⟨c2, l2, x2, r2, rfl, hrl⟩ := climbNext_some p _ t2 p2 hc
        rw [hrl]
        have hlen : (inorderT r2 ++ restList p2).length < fuel := by
          simp only [inorderT, List.nil_append, hrl, List.length_cons] at hlt
          omega
        rw [ih c2 l2 x2 r2 p2 hlen]
        simp [inorderT]
    · show (x :: visitNext fuel
        (some (descendLeft (.node rc rl rx rr) (⟨.R, c, x, l⟩ :: p)))) =
        x :: (inorderT (.node rc rl rx rr) ++ restList p)
      obtain ⟨c', x', r', p', heq, hlist⟩ :=
        descendLeft_spec (.node rc rl rx rr) (⟨.R, c, x, l⟩ :: p)
          (by intro hcon; cases hcon)
      rw [heq]
      have hrest : restList (⟨.R, c, x, l⟩ :: p) = restList p := rfl
      rw [hrest] at hlist
      have hlen : (inorderT r' ++ restList p').length < fuel := by
        have := congrArg List.length hlist
        simp only [List.length_cons, List.length_append] at this ⊢
        simp only [List.length_append] at hlt
        omega
      rw [ih c' .nil x' r' p' hlen, hlist]

theorem length_inorderT (t : Tree) : (inorderT t).length = sizeT t := by
  induction t with
  | nil => rfl
  | node c l x r ihl ihr => simp [inorderT, sizeT, ihl, ihr]; omega

/-- Mirror of one context entry. -/
def mirrorE : PathE → PathE
  | ⟨.L, c, x, sib⟩ => ⟨.R, c, x, mirrorT sib⟩
  | ⟨.R, c, x, sib⟩ => ⟨.L, c, x, mirrorT sib⟩

def mirrorP : Path → Path := List.map mirrorE

/-- Mirror of a location. -/
def mirrorL (loc : Loc) : Loc := (mirrorT loc.1, mirrorP loc.2)

theorem mirrorE_mirrorE (e : PathE) : mirrorE (mirrorE e) = e := by
  obtain ⟨d, c, x, sib⟩ := e
  cases d <;> simp [mirrorE, mirrorT_mirrorT]

theorem mirrorP_mirrorP (p : Path) : mirrorP (mirrorP p) = p := by
  induction p with
  | nil => rfl
  | cons e rest ih => simp [mirrorP, mirrorE_mirrorE] at ih ⊢; exact ih

theorem mirrorL_mirrorL (loc : Loc) : mirrorL (mirrorL loc) = loc := by
  obtain ⟨t, p⟩ := loc
  simp [mirrorL, mirrorT_mirrorT, mirrorP_mirrorP]

theorem inorderT_mirrorT (t : Tree) :
    inorderT (mirrorT t) = (inorderT t).reverse := by
  induction t with
  | nil => rfl
  | node c l x r ihl ihr =>
    show inorderT (mirrorT r) ++ x :: inorderT (mirrorT l) =
      (inorderT l ++ x :: inorderT r).reverse
    rw [ihl, ihr]
    simp

theorem sizeT_mirrorT (t : Tree) : sizeT (mirrorT t) = sizeT t := by
  induction t with
  | nil => rfl
  | node c l x r ihl ihr => simp [mirrorT, sizeT, ihl, ihr]; omega

theorem idOf_mirrorT (t : Tree) : idOf (mirrorT t) = idOf t := by
  cases t <;> rfl

theorem descendRight_eq_mirror : ∀ (t : Tree) (p : Path),
    descendRight t p = mirrorL (descendLeft (mirrorT t) (mirrorP p)) := by
  intro t
  induction t with
  | nil => intro p; simp [descendRight, descendLeft, mirrorT, mirrorL,
      mirrorT_mirrorT, mirrorP_mirrorP]
  | node c l x r ihl ihr =>
    intro p
    rcases r with _ | ⟨rc, rl, rx, rr⟩
    · show (.node c l x .nil, p) = mirrorL (descendLeft
        (.node c .nil x (mirrorT l)) (mirrorP p))
      simp [descendLeft, mirrorL, mirrorT, mirrorT_mirrorT, mirrorP_mirrorP]
    · show descendRight (.node rc rl rx rr) (⟨.R, c, x, l⟩ :: p) =
        mirrorL (descendLeft (.node rc (mirrorT rr) rx (mirrorT rl))
          (⟨.L, c, x, mirrorT l⟩ :: mirrorP p))
      rw [ihr (⟨.R, c, x, l⟩ :: p)]
      rfl

theorem ph_last_eq_mirror (t : Tree) :
    ph_last_z t = (ph_first_z (mirrorT t)).map mirrorL := by
  cases t with
  | nil => rfl
  | node c l x r =>
    show some (descendRight (.node c l x r) []) =
      (some (descendLeft (mirrorT (.node c l x r)) [])).map mirrorL
    rw [descendRight_eq_mirror]
    rfl

theorem climbPrev_eq_mirror : ∀ (p : Path) (t : Tree),
    climbPrev t p = (climbNext (mirrorT t) (mirrorP p)).map mirrorL := by
  intro p
  induction p with
  | nil => intro t; rfl
  | cons pe rest ih =>
    intro t
    obtain ⟨d, c, x, sib⟩ := pe
    cases d with
    | L =>
      show climbPrev (.node c t x sib) rest =
        (climbNext (.node c (mirrorT sib) x (mirrorT t)) (mirrorP rest)).map mirrorL
      rw [ih (.node c t x sib)]
      rfl
    | R =>
      show some ((.node c sib x t : Tree), rest) =
        (some ((.node c (mirrorT t) x (mirrorT sib) : Tree), mirrorP rest)).map mirrorL
      simp [mirrorL, mirrorT, mirrorT_mirrorT, mirrorP_mirrorP]

theorem ph_prev_eq_mirror (loc : Loc) :
    ph_prev_z loc = (ph_next_z (mirrorL loc)).map mirrorL := by
  obtain ⟨t, p⟩ := loc
  rcases t with _ | ⟨c, l, x, r⟩
  · show climbPrev .nil p = (climbNext .nil (mirrorP p)).map mirrorL
    exact climbPrev_eq_mirror p .nil
  rcases l with _ | ⟨lc, ll, lx, lr⟩
  · -- no left child: climb
    exact climbPrev_eq_mirror p (.node c .nil x r)
  · show some (descendRight (.node lc ll lx lr) (⟨.L, c, x, r⟩ :: p)) =
      (ph_next_z (.node c (mirrorT r) x (mirrorT (.node lc ll lx lr)), mirrorP p)).map
        mirrorL
    rw [descendRight_eq_mirror]
    rfl

theorem visitPrev_eq_mirror : ∀ (fuel : Nat) (ol : Option Loc),
    visitPrev fuel ol = visitNext fuel (ol.map mirrorL) := by
  intro fuel
  induction fuel with
  | zero => intro ol; cases ol <;> rfl
  | succ fuel ih =>
    intro ol
    cases ol with
    | none => rfl
    | some loc =>
      show idOf loc.1 :: visitPrev fuel (ph_prev_z loc) =
        idOf (mirrorL loc).1 :: visitNext fuel (ph_next_z (mirrorL loc))
      rw [ih (ph_prev_z loc), ph_prev_eq_mirror loc]
      have hmap : ((ph_next_z (mirrorL loc)).map mirrorL).map mirrorL =
          ph_next_z (mirrorL loc) := by
        cases ph_next_z (mirrorL loc) with
        | none => rfl
        | some l2 => simp [mirrorL_mirrorL]
      rw [hmap]
      obtain ⟨t, p⟩ := loc
      rw [show (mirrorL (t, p)).1 = mirrorT t from rfl, idOf_mirrorT]

/-- C6: iterating `ph_next` from `ph_first` visits every linked node exactly
once, in ascending caller-defined (BST) order — the list of visited ids is
exactly the in-order id list; iterating `ph_prev` from `ph_last` yields
exactly the reverse list. -/
theorem claim_C6_iteration (t : Tree) :
    visitNext (sizeT t) (ph_first_z t) = inorderT t ∧
      visitPrev (sizeT t) (ph_last_z t) = (inorderT t).reverse := by
  have hfwd : ∀ u : Tree, visitNext (sizeT u) (ph_first_z u) = inorderT u := by
    intro u
    cases u with
    | nil => rfl
    | node c l x r =>
      show visitNext (sizeT (.node c l x r))
        (some (descendLeft (.node c l x r) [])) = inorderT (.node c l x r)
      obtain ⟨c', x', r', p', heq, hlist⟩ :=
        descendLeft_spec (.node c l x r) [] (by intro hc; cases hc)
      rw [heq]
      have hlist' : x' :: (inorderT r' ++ restList p') = inorderT (.node c l x r) := by
        rw [hlist]; simp [restList]
      have hlen : (inorderT r' ++ restList p').length < sizeT (.node c l x r) := by
        have := congrArg List.length hlist'
        simp only [List.length_cons] at this
        rw [length_inorderT] at this
        omega
      rw [visitNext_spec (sizeT (.node c l x r)) c' .nil x' r' p' hlen]
      exact hlist'
  refine ⟨hfwd t, ?_⟩
  rw [visitPrev_eq_mirror, ph_last_eq_mirror]
  have hmap : ((ph_first_z (mirrorT t)).map mirrorL).map mirrorL =
      ph_first_z (mirrorT t) := by
    cases ph_first_z (mirrorT t) with
    | none => rfl
    | some l2 => simp [mirrorL_mirrorL]
  rw [hmap, ← sizeT_mirrorT t, hfwd (mirrorT t), inorderT_mirrorT]

/-- The ids in postorder: both children strictly before the node. -/
def postorderT : Tree → List Nat
  | .nil => []
  | .node _ l x r => postorderT l ++ postorderT r ++ [x]

/-- `ph_left_deepest_node` (lib/phtree.c lines 335-345): descend left when
possible, else right, until a leaf. -/
def leftDeepest : Tree → Path → Loc
  | .node c (.node lc ll lx lr) x r, p =>
    leftDeepest (.node lc ll lx lr) (⟨.L, c, x, r⟩ :: p)
  | .node c .nil x (.node rc rl rx rr), p =>
    leftDeepest (.node rc rl rx rr) (⟨.R, c, x, .nil⟩ :: p)
  | t, p => (t, p)

/-- `ph_first_postorder` (lib/phtree.c lines 366-374). -/
def ph_first_post_z : Tree → Option Loc
  | .nil => none
  | .node c l x r => some (leftDeepest (.node c l x r) [])

/-- `ph_next_postorder` (lib/phtree.c lines 347-364): when the node is its
parent's left child and the parent has a right child, that sibling subtree's
left-deepest node; otherwise the parent (absent at the root). -/
def ph_next_post_z : Loc → Option Loc
  | (_, []) => none
  | (t, ⟨.L, c, x, .node sc sl sx sr⟩ :: rest) =>
    some (leftDeepest (.node sc sl sx sr) (⟨.R, c, x, t⟩ :: rest))
  | (t, ⟨.L, c, x, .nil⟩ :: rest) => some (.node c t x .nil, rest)
  | (t, ⟨.R, c, x, sib⟩ :: rest) => some (.node c sib x t, rest)

/-- Iterate `ph_next_postorder` from a location, collecting the visited ids. -/
def visitPost : Nat → Option Loc → List Nat
  | 0, _ => []
  | _ + 1, none => []
  | fuel + 1, some loc => idOf loc.1 :: visitPost fuel (ph_next_post_z loc)

/-- The ids a postorder iteration still has to visit strictly after the
current node, read off the context: for an ancestor reached through a left
edge, its right subtree in postorder and then the ancestor; for one reached
through a right edge, the ancestor itself. -/
def postRest : Path → List Nat
  | [] => []
  | ⟨.L, _, x, sib⟩ :: rest => postorderT sib ++ x :: postRest rest
  | ⟨.R, _, x, _⟩ :: rest => x :: postRest rest

theorem leftDeepest_spec : ∀ (t : Tree) (p : Path), t ≠ .nil →
    ∃ c x p', leftDeepest t p = (.node c .nil x .nil, p') ∧
      x :: postRest p' = postorderT t ++ postRest p := by
  intro t
  induction t with
  | nil => intro p h; exact absurd rfl h
  | node c l x r ihl ihr =>
    intro p _
    rcases l with _ | ⟨lc, ll, lx, lr⟩
    · rcases r with _ | ⟨rc, rl, rx, rr⟩
      · exact ⟨c, x, p, rfl, by simp [postorderT]⟩
      · obtain ⟨c', x', p', heq, hlist⟩ :=
          ihr (⟨.R, c, x, .nil⟩ :: p) (by intro hc; cases hc)
        refine ⟨c', x', p', heq, ?_⟩
        rw [hlist]
        simp [postRest, postorderT]
    · obtain ⟨c', x', p', heq, hlist⟩ :=
        ihl (⟨.L, c, x, r⟩ :: p) (by intro hc; cases hc)
      refine ⟨c', x', p', heq, ?_⟩
      rw [hlist]
      simp [postRest, postorderT]

theorem visitPost_spec : ∀ (fuel : Nat) (c : Color) (l : Tree) (x : Nat)
    (r : Tree) (p : Path), (postRest p).length < fuel →
    visitPost fuel (some (.node c l x r, p)) = x :: postRest p := by
  intro fuel
  induction fuel with
  | zero => intro c l x r p hlt; omega
  | succ fuel ih =>
    intro c l x r p hlt
    show (x :: visitPost fuel (ph_next_post_z (.node c l x r, p))) = x :: postRest p
    rcases p with _ | ⟨⟨d, c2, x2, sib⟩, rest⟩
    · cases fuel <;> rfl
    cases d with
    | L =>
      rcases sib with _ | ⟨sc, sl, sx, sr⟩
      · show (x :: visitPost fuel
          (some ((.node c2 (.node c l x r) x2 .nil : Tree), rest))) =
          x :: postRest (⟨.L, c2, x2, .nil⟩ :: rest)
        have hlen : (postRest rest).length < fuel := by
          simp only [postRest, postorderT, List.nil_append, List.length_cons] at hlt ⊢
          omega
        rw [ih c2 (.node c l x r) x2 .nil rest hlen]
        simp [postRest, postorderT]
      · show (x :: visitPost fuel (some (leftDeepest (.node sc sl sx sr)
          (⟨.R, c2, x2, .node c l x r⟩ :: rest)))) =
          x :: postRest (⟨.L, c2, x2, .node sc sl sx sr⟩ :: rest)
        obtain ⟨c', x', p', heq, hlist⟩ :=
          leftDeepest_spec (.node sc sl sx sr) (⟨.R, c2, x2, .node c l x r⟩ :: rest)
            (by intro hc; cases hc)
        rw [heq]
        have hrw : postorderT (.node sc sl sx sr) ++
            postRest (⟨.R, c2, x2, (.node c l x r : Tree)⟩ :: rest) =
            postRest (⟨.L, c2, x2, (.node sc sl sx sr : Tree)⟩ :: rest) := by
          simp [postRest]
        rw [hrw] at hlist
        have hlen : (postRest p').length < fuel := by
          have := congrArg List.length hlist
          simp only [List.length_cons] at this
          omega
        rw [ih c' .nil x' .nil p' hlen, hlist]
    | R =>
      show (x :: visitPost fuel
        (some ((.node c2 sib x2 (.node c l x r) : Tree), rest))) =
        x :: postRest (⟨.R, c2, x2, sib⟩ :: rest)
      have hlen : (postRest rest).length < fuel := by
        simp only [postRest, List.length_cons] at hlt
        omega
      rw [ih c2 sib x2 (.node c l x r) rest hlen]
      rfl

theorem length_postorderT (t : Tree) : (postorderT t).length = sizeT t := by
  induction t with
  | nil => rfl
  | node c l x r ihl ihr => simp [postorderT, sizeT, ihl, ihr]; omega

/-- C7: the postorder walk (`ph_first_postorder` then repeated
`ph_next_postorder` until absent) visits every linked node exactly once, in
exactly the postorder id list — so every node comes strictly after both of
its children and strictly before its parent — and it starts at the
left-deepest leaf. -/
theorem claim_C7_postorder (t : Tree) :
    visitPost (sizeT t) (ph_first_post_z t) = postorderT t := by
  cases t with
  | nil => rfl
  | node c l x r =>
    show visitPost (sizeT (.node c l x r))
      (some (leftDeepest (.node c l x r) [])) = postorderT (.node c l x r)
    obtain ⟨c', x', p', heq, hlist⟩ :=
      leftDeepest_spec (.node c l x r) [] (by intro hc; cases hc)
    rw [heq]
    have hlist' : x' :: postRest p' = postorderT (.node c l x r) := by
      rw [hlist]; simp [postRest]
    have hlen : (postRest p').length < sizeT (.node c l x r) := by
      have := congrArg List.length hlist'
      simp only [List.length_cons] at this
      rw [length_postorderT] at this
      omega
    rw [visitPost_spec (sizeT (.node c l x r)) c' .nil x' .nil p' hlen]
    exact hlist'

/-- The ids contributed by the context strictly before the focus in in-order:
for each ancestor reached through a right edge, its left subtree and then the
ancestor. -/
def leftL : Path → List Nat
  | [] => []
  | ⟨.L, _, _, _⟩ :: rest => leftL rest
  | ⟨.R, _, x, sib⟩ :: rest => leftL rest ++ inorderT sib ++ [x]

theorem plug_inorder : ∀ (p : Path) (t : Tree),
    inorderT (plug t p) = leftL p ++ inorderT t ++ restList p := by
  intro p
  induction p with
  | nil => intro t; simp [plug, leftL, restList]
  | cons pe rest ih =>
    intro t
    obtain ⟨d, c, x, sib⟩ := pe
    cases d with
    | L =>
      show inorderT (plug (.node c t x sib) rest) = _
      rw [ih]
      simp [inorderT, leftL, restList]
    | R =>
      show inorderT (plug (.node c sib x t) rest) = _
      rw [ih]
      simp [inorderT, leftL, restList]

theorem delBlackL_inorder (t : Tree) (pc : Color) (px : Nat) (s : Tree) :
    inorderT (delBlackL t pc px s).1 = inorderT t ++ px :: inorderT s := by
  rcases s with _ | ⟨sc, sl, sx, sr⟩
  · rfl
  cases sc with
  | red => rfl
  | black =>
    rcases sr with _ | ⟨src, srl, srx, srr⟩
    · rcases sl with _ | ⟨slc, sll, slx, slr⟩
      · rfl
      · cases slc <;> simp [delBlackL, inorderT]
    · cases src with
      | red => simp [delBlackL, inorderT]
      | black =>
        rcases sl with _ | ⟨slc, sll, slx, slr⟩
        · simp [delBlackL, inorderT]
        · cases slc <;> simp [delBlackL, inorderT]

theorem delBlackR_inorder (t : Tree) (pc : Color) (px : Nat) (s : Tree) :
    inorderT (delBlackR t pc px s).1 = inorderT s ++ px :: inorderT t := by
  rcases s with _ | ⟨sc, sl, sx, sr⟩
  · rfl
  cases sc with
  | red => rfl
  | black =>
    rcases sl with _ | ⟨slc, sll, slx, slr⟩
    · rcases sr with _ | ⟨src, srl, srx, srr⟩
      · rfl
      · cases src <;> simp [delBlackR, inorderT]
    · cases slc with
      | red => simp [delBlackR, inorderT]
      | black =>
        rcases sr with _ | ⟨src, srl, srx, srr⟩
        · simp [delBlackR, inorderT]
        · cases src <;> simp [delBlackR, inorderT]

/-- The erase fixup recolors and rotates but never reorders: the in-order id
list of the repaired tree is that of the reassembled tree. -/
theorem delFix_inorder : ∀ (p : Path) (t : Tree),
    inorderT (delFix t p) = leftL p ++ inorderT t ++ restList p := by
  intro p
  induction p with
  | nil => intro t; simp [delFix, leftL, restList]
  | cons pe rest ih =>
    intro t
    obtain ⟨d, pc, px, s⟩ := pe
    cases d with
    | L =>
      rcases s with _ | ⟨sc, sl, sx, sr⟩
      · show inorderT (match delBlackL t pc px .nil with
          | (res, true) => plug res rest
          | (res, false) => delFix res rest) = _
        rcases hdl : delBlackL t pc px .nil with ⟨res, term⟩
        have hres : inorderT res = inorderT t ++ px :: inorderT .nil := by
          have := delBlackL_inorder t pc px .nil
          rw [hdl] at this
          exact this
        cases term with
        | true =>
          show inorderT (plug res rest) = _
          rw [plug_inorder, hres]
          simp [leftL, restList, inorderT]
        | false =>
          show inorderT (delFix res rest) = _
          rw [ih, hres]
          simp [leftL, restList, inorderT]
      cases sc with
      | red =>
        show inorderT (plug (.node .black (delBlackL t .red px sl).1 sx sr) rest) = _
        rw [plug_inorder]
        simp only [inorderT, delBlackL_inorder]
        simp [leftL, restList, inorderT]
      | black =>
        show inorderT (match delBlackL t pc px (.node .black sl sx sr) with
          | (res, true) => plug res rest
          | (res, false) => delFix res rest) = _
        rcases hdl : delBlackL t pc px (.node .black sl sx sr) with ⟨res, term⟩
        have hres : inorderT res =
            inorderT t ++ px :: inorderT (.node .black sl sx sr) := by
          have := delBlackL_inorder t pc px (.node .black sl sx sr)
          rw [hdl] at this
          exact this
        cases term with
        | true =>
          show inorderT (plug res rest) = _
          rw [plug_inorder, hres]
          simp [leftL, restList, inorderT]
        | false =>
          show inorderT (delFix res rest) = _
          rw [ih, hres]
          simp [leftL, restList, inorderT]
    | R =>
      rcases s with _ | ⟨sc, sl, sx, sr⟩
      · show inorderT (match delBlackR t pc px .nil with
          | (res, true) => plug res rest
          | (res, false) => delFix res rest) = _
        rcases hdl : delBlackR t pc px .nil with ⟨res, term⟩
        have hres : inorderT res = inorderT .nil ++ px :: inorderT t := by
          have := delBlackR_inorder t pc px .nil
          rw [hdl] at this
          exact this
        cases term with
        | true =>
          show inorderT (plug res rest) = _
          rw [plug_inorder, hres]
          simp [leftL, restList, inorderT]
        | false =>
          show inorderT (delFix res rest) = _
          rw [ih, hres]
          simp [leftL, restList, inorderT]
      cases sc with
      | red =>
        show inorderT (plug (.node .black sl sx (delBlackR t .red px sr).1) rest) = _
        rw [plug_inorder]
        simp only [inorderT, delBlackR_inorder]
        simp [leftL, restList, inorderT]
      | black =>
        show inorderT (match delBlackR t pc px (.node .black sl sx sr) with
          | (res, true) => plug res rest
          | (res, false) => delFix res rest) = _
        rcases hdl : delBlackR t pc px (.node .black sl sx sr) with ⟨res, term⟩
        have hres : inorderT res =
            inorderT (.node .black sl sx sr) ++ px :: inorderT t := by
          have := delBlackR_inorder t pc px (.node .black sl sx sr)
          rw [hdl] at this
          exact this
        cases term with
        | true =>
          show inorderT (plug res rest) = _
          rw [plug_inorder, hres]
          simp [leftL, restList, inorderT]
        | false =>
          show inorderT (delFix res rest) = _
          rw [ih, hres]
          simp [leftL, restList, inorderT]

/-- The in-order list of a non-empty subtree starts with its leftmost id. -/
theorem inorder_min : ∀ (u : Tree), u ≠ .nil →
    inorderT u = minId u :: (inorderT u).tail := by
  intro u
  induction u with
  | nil => intro h; exact absurd rfl h
  | node c l x r ihl _ =>
    intro _
    rcases l with _ | ⟨lc, ll, lx, lr⟩
    · simp [inorderT, minId]
    · have hlsub : inorderT (.node lc ll lx lr) =
          minId (.node lc ll lx lr) :: (inorderT (.node lc ll lx lr)).tail :=
        ihl (by intro hc; cases hc)
      have hbig : inorderT (.node c (.node lc ll lx lr) x r) =
          inorderT (.node lc ll lx lr) ++ x :: inorderT r := rfl
      have hmin : minId (.node c (.node lc ll lx lr) x r) =
          minId (.node lc ll lx lr) := rfl
      rw [hbig, hmin, hlsub]
      simp

/-- Removing the leftmost node removes exactly the head of the in-order id
list, preserving the order of everything else. -/
theorem eraseMin_inorder : ∀ (u : Tree) (p : Path), u ≠ .nil →
    inorderT (eraseMin u p) = leftL p ++ (inorderT u).tail ++ restList p := by
  intro u
  induction u with
  | nil => intro p h; exact absurd rfl h
  | node cu lu ux ru ihl _ =>
    intro p _
    rcases lu with _ | ⟨lc, ll, lx, lr⟩
    · rcases ru with _ | ⟨rc, rl, rx, rr⟩
      · cases cu with
        | black =>
          show inorderT (delFix .nil p) = _
          rw [delFix_inorder]
          simp [inorderT]
        | red =>
          show inorderT (plug .nil p) = _
          rw [plug_inorder]
          simp [inorderT]
      · show inorderT (plug (.node cu rl rx rr) p) = _
        rw [plug_inorder]
        simp [inorderT]
    · show inorderT (eraseMin (.node lc ll lx lr) (⟨.L, cu, ux, ru⟩ :: p)) = _
      rw [ihl (⟨.L, cu, ux, ru⟩ :: p) (by intro hc; cases hc)]
      have hL : inorderT (.node lc ll lx lr) =
          minId (.node lc ll lx lr) :: (inorderT (.node lc ll lx lr)).tail :=
        inorder_min _ (by intro hc; cases hc)
      show leftL p ++ (inorderT (.node lc ll lx lr)).tail ++
          (ux :: (inorderT ru ++ restList p)) = _
      have htail : (inorderT (.node cu (.node lc ll lx lr) ux ru)).tail =
          (inorderT (.node lc ll lx lr)).tail ++ ux :: inorderT ru := by
        show (inorderT (.node lc ll lx lr) ++ ux :: inorderT ru).tail = _
        rw [hL]
        simp
      rw [htail]
      simp

/-- C5: erasing a linked node with two children splices its in-order
successor — the leftmost node of its right subtree — into the node's
position: the in-order id list of the result is exactly the original's with
the erased id removed and everything else in its old order; the migrated id
is `minId` of the right subtree, the head of the right subtree's in-order
list; and (when the physically removed node was BLACK, via the sibling-color
case analysis of the erase fixup) the result again satisfies all the
red-black invariants. -/
theorem claim_C5_erase_two_children (c lc : Color) (ll : Tree) (lx : Nat)
    (lr : Tree) (x : Nat) (rc : Color) (rl : Tree) (rx : Nat) (rr : Tree)
    (p : Path) (h : Nat)
    (hp : pathOk p h = true)
    (hn : noRR (.node c (.node lc ll lx lr) x (.node rc rl rx rr)) = true)
    (hb : bhOf (.node c (.node lc ll lx lr) x (.node rc rl rx rr)) = some h)
    (hr : rootRed (.node c (.node lc ll lx lr) x (.node rc rl rx rr)) = true →
      headBlack p = true) :
    inorderT (ph_erase_z c (.node lc ll lx lr) x (.node rc rl rx rr) p) =
      leftL p ++ (inorderT (.node lc ll lx lr) ++ inorderT (.node rc rl rx rr))
        ++ restList p ∧
    inorderT (plug (.node c (.node lc ll lx lr) x (.node rc rl rx rr)) p) =
      leftL p ++ (inorderT (.node lc ll lx lr) ++ x ::
        inorderT (.node rc rl rx rr)) ++ restList p ∧
    inorderT (.node rc rl rx rr) =
      minId (.node rc rl rx rr) :: (inorderT (.node rc rl rx rr)).tail ∧
    RBroot (ph_erase_z c (.node lc ll lx lr) x (.node rc rl rx rr) p) = true := by
  refine ⟨?_, ?_, inorder_min _ (by intro hc; cases hc),
    erase_RB c _ x _ p h hp hn hb hr⟩
  · show inorderT (eraseMin (.node rc rl rx rr)
      (⟨.R, c, minId (.node rc rl rx rr), .node lc ll lx lr⟩ :: p)) = _
    rw [eraseMin_inorder _ _ (by intro hc; cases hc)]
    have hlL : leftL (⟨.R, c, minId (.node rc rl rx rr),
        (.node lc ll lx lr : Tree)⟩ :: p) =
        leftL p ++ inorderT (.node lc ll lx lr) ++ [minId (.node rc rl rx rr)] :=
      rfl
    have hrL : restList (⟨.R, c, minId (.node rc rl rx rr),
        (.node lc ll lx lr : Tree)⟩ :: p) = restList p := rfl
    rw [hlL, hrL]
    conv_rhs => rw [inorder_min (.node rc rl rx rr) (by intro hc; cases hc)]
    simp
  · rw [plug_inorder]
    rfl

/-- Witness for C5: erase the BLACK root of a three-node tree; the successor
3 is spliced into the root position and the fixup restores the invariants. -/
theorem claim_C5_witness :
    inorderT (ph_erase_z .black (.node .red .nil 1 .nil) 2
        (.node .red .nil 3 .nil) []) =
      leftL [] ++ (inorderT (.node .red .nil 1 .nil) ++
        inorderT (.node .red .nil 3 .nil)) ++ restList [] ∧
    inorderT (plug (.node .black (.node .red .nil 1 .nil) 2
        (.node .red .nil 3 .nil)) []) =
      leftL [] ++ (inorderT (.node .red .nil 1 .nil) ++ 2 ::
        inorderT (.node .red .nil 3 .nil)) ++ restList [] ∧
    inorderT (.node .red .nil 3 .nil) =
      minId (.node .red .nil 3 .nil) ::
        (inorderT (.node .red .nil 3 .nil)).tail ∧
    RBroot (ph_erase_z .black (.node .red .nil 1 .nil) 2
        (.node .red .nil 3 .nil) []) = true :=
  claim_C5_erase_two_children .black .red .nil 1 .nil 2 .red .nil 3 .nil [] 1
    (by decide) (by decide) (by decide) (by decide)

/-!  Pointer-level embedding.  `struct ph_node` (tools/include/linux/phtree.h
lines 19-22) as written declares only the two child links, yet
`PH_EMPTY_NODE` (lines 37-38) and every function in lib/phtree.c read and
write `node->__ph_parent_color`, so the header cannot compile as written; the
spec (sections 3, 6 and 9) says a node is a left link, a right link and a
parent reference packed with a one-bit color.  The record below carries the
two links of the source plus the spec's packed member.  Pointers are machine
addresses (`Nat`), `0` is NULL; nodes are aligned to `sizeof(long)` (the
header's `__attribute__((aligned(sizeof(long))))`), so the two low bits of an
address are zero and bit 0 of the packed word holds the color: 0 = RED,
1 = BLACK. -/

structure PhNode : Type where
  ph_right : Nat
  ph_left : Nat
  /-- Modelled from the spec: the `__ph_parent_color` member missing from the
  struct in the header though used by PH_EMPTY_NODE and all of phtree.c. -/
  ph_parent_color : Nat
deriving DecidableEq, Repr

/-- Memory: every address holds a node record.  (Only the addresses
reachable from a root are ever relevant.) -/
abbrev Heap := Nat → PhNode

/-- `PH_EMPTY_NODE(node)` (phtree.h lines 37-38): the packed word equals the
node's own address — the self-referential sentinel of an unlinked node. -/
def PH_EMPTY_NODE (h : Heap) (a : Nat) : Bool := (h a).ph_parent_color == a

/-- Modelled from the spec: recover the parent address from the packed word
by clearing the two low (color/unused) bits; the `ph_parent` macro at
phtree.h line 29 is truncated mid-definition in the header. -/
def ph_parent_of (pc : Nat) : Nat := pc - pc % 4

def ph_parent (h : Heap) (a : Nat) : Nat := ph_parent_of (h a).ph_parent_color

/-- The color bit of a packed word: 0 = RED, 1 = BLACK. -/
def ph_color_of (pc : Nat) : Nat := pc % 2

/-- Pointwise heap update. -/
def upd (h : Heap) (a : Nat) (n : PhNode) : Heap :=
  fun b => if b = a then n else h b

structure PhRoot : Type where
  ph_node : Nat
deriving DecidableEq, Repr

/-- The mutable state: all node records plus the root slot. -/
structure St : Type where
  heap : Heap
  root : PhRoot

/-- The `struct ph_node **ph_link` argument of ph_link_node: the slot the new
node is stored into — the root, or a parent's left or right child slot. -/
inductive LinkSlot : Type
  | rootSlot : LinkSlot
  | leftOf (a : Nat) : LinkSlot
  | rightOf (a : Nat) : LinkSlot
deriving DecidableEq, Repr

def writeSlot (σ : St) (s : LinkSlot) (v : Nat) : St :=
  match s with
  | .rootSlot => { σ with root := ⟨v⟩ }
  | .leftOf a => { σ with heap := upd σ.heap a { σ.heap a with ph_left := v } }
  | .rightOf a => { σ with heap := upd σ.heap a { σ.heap a with ph_right := v } }

/-- `ph_link_node` exactly as written in phtree.h lines 58-64: it zeroes the
node's child links and stores the node into the given slot — and nothing
else.  The `parent` argument is unused and the node's packed parent+color
word is never written (the corresponding rbtree helper's first statement,
`node->__rb_parent_color = (unsigned long)parent`, has no counterpart
here). -/
def ph_link_node (σ : St) (node : Nat) (parent : Nat) (ph_link : LinkSlot) : St :=
  let σ1 : St := { σ with
    heap := upd σ.heap node { σ.heap node with ph_left := 0, ph_right := 0 } }
  writeSlot σ1 ph_link node

/-- A concrete two-node heap: a BLACK root at address 4 (parent NULL), an
empty (self-parented) node at address 8. -/
def linkHeap : Heap := fun a =>
  if a = 4 then ⟨0, 0, 1⟩ else if a = 8 then ⟨0, 0, 8⟩ else ⟨0, 0, 0⟩

/-- C3, the code as written: linking the empty node 8 into the left slot of
parent 4 zeroes the child links and installs the node in the slot, but leaves
the node's packed parent+color word untouched: it stays self-referential (the
node still tests as PH_EMPTY_NODE), the node is not colored RED and the given
parent is not recorded (the word would have to become 4 = parent 4 | RED),
so insert-fixup's precondition does not hold afterwards. -/
theorem claim_C3_link_node_no_color :
    ((ph_link_node ⟨linkHeap, ⟨4⟩⟩ 8 4 (.leftOf 4)).heap 8).ph_parent_color = 8 ∧
    PH_EMPTY_NODE (ph_link_node ⟨linkHeap, ⟨4⟩⟩ 8 4 (.leftOf 4)).heap 8 = true ∧
    ((ph_link_node ⟨linkHeap, ⟨4⟩⟩ 8 4 (.leftOf 4)).heap 8).ph_left = 0 ∧
    ((ph_link_node ⟨linkHeap, ⟨4⟩⟩ 8 4 (.leftOf 4)).heap 8).ph_right = 0 ∧
    ((ph_link_node ⟨linkHeap, ⟨4⟩⟩ 8 4 (.leftOf 4)).heap 4).ph_left = 8 ∧
    ((ph_link_node ⟨linkHeap, ⟨4⟩⟩ 8 4 (.leftOf 4)).heap 8).ph_parent_color ≠ 4 := by
  decide

/-- C2, on the spec-completed record: under the alignment guaranteed by the
header (addresses are multiples of `sizeof(long)`) and with the unused bit 1
clear, `PH_EMPTY_NODE` holds exactly when the parent portion of the packed
word is the node's own address and the color bit is RED — the empty state is
precisely the self-referential-parent sentinel.  (The claim's premise that
the struct itself carries this packed member is false of the header as
written; see the divergence recorded for this claim.) -/
theorem claim_C2_empty_state (h : Heap) (a : Nat)
    (hal : a % 4 = 0) (hbit : (h a).ph_parent_color % 4 ≤ 1) :
    PH_EMPTY_NODE h a = true ↔
      (ph_parent h a = a ∧ ph_color_of (h a).ph_parent_color = 0) := by
  unfold PH_EMPTY_NODE ph_parent ph_parent_of ph_color_of
  constructor
  · intro he
    have hpc : (h a).ph_parent_color = a := by
      have := of_decide_eq_true he
      omega
    constructor <;> omega
  · intro hpc
    obtain ⟨h1, h2⟩ := hpc
    have : (h a).ph_parent_color = a := by omega
    simp [this]

/-- Witness for C2 at the concrete empty node 8 of `linkHeap`. -/
theorem claim_C2_witness :
    PH_EMPTY_NODE linkHeap 8 = true ↔
      (ph_parent linkHeap 8 = 8 ∧ ph_color_of (linkHeap 8).ph_parent_color = 0) :=
  claim_C2_empty_state linkHeap 8 (by decide) (by decide)

/-- The `while (n->ph_left) n = n->ph_left` loop of ph_next's right-subtree
descent (lib/phtree.c lines 246-251), totalized with fuel. -/
def leftmostP : Nat → Heap → Nat → Nat
  | 0, _, n => n
  | fuel + 1, h, n =>
    if (h n).ph_left ≠ 0 then leftmostP fuel h (h n).ph_left else n

def rightmostP : Nat → Heap → Nat → Nat
  | 0, _, n => n
  | fuel + 1, h, n =>
    if (h n).ph_right ≠ 0 then rightmostP fuel h (h n).ph_right else n

/-- The ascent loop of ph_next (lib/phtree.c lines 260-263). -/
def climbNextP : Nat → Heap → Nat → Nat
  | 0, _, _ => 0
  | fuel + 1, h, n =>
    if ph_parent h n ≠ 0 && n == (h (ph_parent h n)).ph_right then
      climbNextP fuel h (ph_parent h n)
    else ph_parent h n

def climbPrevP : Nat → Heap → Nat → Nat
  | 0, _, _ => 0
  | fuel + 1, h, n =>
    if ph_parent h n ≠ 0 && n == (h (ph_parent h n)).ph_left then
      climbPrevP fuel h (ph_parent h n)
    else ph_parent h n

/-- `ph_next` (lib/phtree.c lines 235-265) at pointer level; 0 is the NULL
("no node") result.  The first statement is the `ph_EMPTY_NODE(node)` guard. -/
def ph_next_p (fuel : Nat) (h : Heap) (node : Nat) : Nat :=
  if PH_EMPTY_NODE h node then 0
  else if (h node).ph_right ≠ 0 then leftmostP fuel h (h node).ph_right
  else climbNextP fuel h node

/-- `ph_prev` (lib/phtree.c lines 267-294) at pointer level. -/
def ph_prev_p (fuel : Nat) (h : Heap) (node : Nat) : Nat :=
  if PH_EMPTY_NODE h node then 0
  else if (h node).ph_left ≠ 0 then rightmostP fuel h (h node).ph_left
  else climbPrevP fuel h node

/-- C10: on a node in the empty (unlinked, self-referential-parent) state,
ph_next and ph_prev return the defined no-node result NULL — the guard fires
before any link is dereferenced, for every heap and every such node. -/
theorem claim_C10_empty_node_traversal (fuel : Nat) (h : Heap) (node : Nat)
    (he : PH_EMPTY_NODE h node = true) :
    ph_next_p fuel h node = 0 ∧ ph_prev_p fuel h node = 0 := by
  unfold ph_next_p ph_prev_p
  rw [he]
  simp

/-- Witness for C10 at the concrete empty node 8 of `linkHeap`. -/
theorem claim_C10_witness :
    ph_next_p 5 linkHeap 8 = 0 ∧ ph_prev_p 5 linkHeap 8 = 0 :=
  claim_C10_empty_node_traversal 5 linkHeap 8 (by decide)

/-- Modelled from the spec: `ph_set_parent` keeps the color bit and stores
the new parent address in the packed word. -/
def ph_set_parent (h : Heap) (a p : Nat) : Heap :=
  upd h a { h a with ph_parent_color := p + (h a).ph_parent_color % 2 }

/-- Modelled from the spec: `__ph_change_child` — repoint the parent's child
slot holding `old` (or the root when there is no parent) to `newN`. -/
def ph_change_child (old newN parent : Nat) (σ : St) : St :=
  if parent ≠ 0 then
    if (σ.heap parent).ph_left = old then
      { σ with heap := upd σ.heap parent { σ.heap parent with ph_left := newN } }
    else
      { σ with heap := upd σ.heap parent { σ.heap parent with ph_right := newN } }
  else
    { σ with root := ⟨newN⟩ }

/-- `ph_replace_node` (lib/phtree.c lines 296-311): read the victim's parent,
copy the whole victim record over the replacement (`*new = *victim`), repoint
the victim's children's parent words to the replacement, then repoint the
parent's child slot (or the root) to the replacement. -/
def ph_replace_node (victim newN : Nat) (σ : St) : St :=
  let parent := ph_parent σ.heap victim
  let σ1 : St := { σ with heap := upd σ.heap newN (σ.heap victim) }
  let σ2 : St :=
    if (σ1.heap victim).ph_left ≠ 0 then
      { σ1 with heap := ph_set_parent σ1.heap (σ1.heap victim).ph_left newN }
    else σ1
  let σ3 : St :=
    if (σ2.heap victim).ph_right ≠ 0 then
      { σ2 with heap := ph_set_parent σ2.heap (σ2.heap victim).ph_right newN }
    else σ2
  ph_change_child victim newN parent σ3

theorem upd_apply (h : Heap) (a : Nat) (n : PhNode) (b : Nat) :
    upd h a n b = if b = a then n else h b := rfl

/-- The three stages of ph_replace_node before the child-slot update, named
for stepwise reasoning (definitionally equal to the lets in the function). -/
def repl1 (σ : St) (victim newN : Nat) : St :=
  { σ with heap := upd σ.heap newN (σ.heap victim) }

def repl2 (σ : St) (victim newN : Nat) : St :=
  if ((repl1 σ victim newN).heap victim).ph_left ≠ 0 then
    { repl1 σ victim newN with
      heap := ph_set_parent (repl1 σ victim newN).heap
        ((repl1 σ victim newN).heap victim).ph_left newN }
  else repl1 σ victim newN

def repl3 (σ : St) (victim newN : Nat) : St :=
  if ((repl2 σ victim newN).heap victim).ph_right ≠ 0 then
    { repl2 σ victim newN with
      heap := ph_set_parent (repl2 σ victim newN).heap
        ((repl2 σ victim newN).heap victim).ph_right newN }
  else repl2 σ victim newN

theorem ph_replace_node_def (victim newN : Nat) (σ : St) :
    ph_replace_node victim newN σ =
      ph_change_child victim newN (ph_parent σ.heap victim)
        (repl3 σ victim newN) := rfl

theorem set_parent_at (h : Heap) (a p b : Nat) :
    ph_set_parent h a p b =
      if b = a then
        { h a with ph_parent_color := p + (h a).ph_parent_color % 2 }
      else h b := rfl

theorem set_parent_left (h : Heap) (a p b : Nat) :
    (ph_set_parent h a p b).ph_left = (h b).ph_left := by
  rw [set_parent_at]
  split_ifs with hba
  · subst hba; rfl
  · rfl

theorem set_parent_right (h : Heap) (a p b : Nat) :
    (ph_set_parent h a p b).ph_right = (h b).ph_right := by
  rw [set_parent_at]
  split_ifs with hba
  · subst hba; rfl
  · rfl

theorem repl1_at (σ : St) (victim newN b : Nat) :
    (repl1 σ victim newN).heap b =
      if b = newN then σ.heap victim else σ.heap b := rfl

theorem repl1_victim (σ : St) (victim newN : Nat) (hvn : victim ≠ newN) :
    (repl1 σ victim newN).heap victim = σ.heap victim := by
  rw [repl1_at, if_neg hvn]

theorem repl1_root (σ : St) (victim newN : Nat) :
    (repl1 σ victim newN).root = σ.root := rfl

theorem repl2_other (σ : St) (victim newN b : Nat) (hvn : victim ≠ newN)
    (hbn : b ≠ newN) (hbl : b ≠ (σ.heap victim).ph_left) :
    (repl2 σ victim newN).heap b = σ.heap b := by
  unfold repl2
  rw [repl1_victim σ victim newN hvn]
  split_ifs with hc
  · show ph_set_parent (repl1 σ victim newN).heap (σ.heap victim).ph_left newN b =
      σ.heap b
    rw [set_parent_at, if_neg hbl, repl1_at, if_neg hbn]
  · rw [repl1_at, if_neg hbn]

theorem repl2_victim_right (σ : St) (victim newN : Nat) (hvn : victim ≠ newN) :
    ((repl2 σ victim newN).heap victim).ph_right = (σ.heap victim).ph_right := by
  unfold repl2
  rw [repl1_victim σ victim newN hvn]
  split_ifs with hc
  · show (ph_set_parent (repl1 σ victim newN).heap (σ.heap victim).ph_left newN
      victim).ph_right = (σ.heap victim).ph_right
    rw [set_parent_right, repl1_victim σ victim newN hvn]
  · rw [repl1_victim σ victim newN hvn]

theorem repl2_newN (σ : St) (victim newN : Nat) (hvn : victim ≠ newN)
    (hnl : (σ.heap victim).ph_left ≠ newN) :
    (repl2 σ victim newN).heap newN = σ.heap victim := by
  unfold repl2
  rw [repl1_victim σ victim newN hvn]
  split_ifs with hc
  · show ph_set_parent (repl1 σ victim newN).heap (σ.heap victim).ph_left newN
      newN = σ.heap victim
    rw [set_parent_at, if_neg (Ne.symm hnl), repl1_at, if_pos rfl]
  · rw [repl1_at, if_pos rfl]

/-- The exposed structural projections of a node: child links and color bit. -/
def agreeOn (h h' : Heap) (b : Nat) : Prop :=
  (h' b).ph_left = (h b).ph_left ∧ (h' b).ph_right = (h b).ph_right ∧
    (h' b).ph_parent_color % 2 = (h b).ph_parent_color % 2

theorem repl2_agree (σ : St) (victim newN b : Nat) (hvn : victim ≠ newN)
    (heven : newN % 2 = 0) (hbn : b ≠ newN) :
    agreeOn σ.heap (repl2 σ victim newN).heap b := by
  unfold repl2
  rw [repl1_victim σ victim newN hvn]
  split_ifs with hc
  · show agreeOn σ.heap
      (ph_set_parent (repl1 σ victim newN).heap (σ.heap victim).ph_left newN) b
    refine ⟨?_, ?_, ?_⟩
    · rw [set_parent_left, repl1_at, if_neg hbn]
    · rw [set_parent_right, repl1_at, if_neg hbn]
    · rw [set_parent_at]
      split_ifs with hbl
      · rw [← hbl]
        show (newN + ((repl1 σ victim newN).heap b).ph_parent_color % 2) % 2 = _
        rw [repl1_at, if_neg hbn]
        omega
      · rw [repl1_at, if_neg hbn]
  · exact ⟨by rw [repl1_at, if_neg hbn], by rw [repl1_at, if_neg hbn],
      by rw [repl1_at, if_neg hbn]⟩

theorem repl2_root (σ : St) (victim newN : Nat) :
    (repl2 σ victim newN).root = σ.root := by
  unfold repl2
  split_ifs <;> rfl

theorem repl3_other (σ : St) (victim newN b : Nat) (hvn : victim ≠ newN)
    (hbn : b ≠ newN) (hbl : b ≠ (σ.heap victim).ph_left)
    (hbr : b ≠ (σ.heap victim).ph_right) :
    (repl3 σ victim newN).heap b = σ.heap b := by
  unfold repl3
  rw [repl2_victim_right σ victim newN hvn]
  split_ifs with hc
  · show ph_set_parent (repl2 σ victim newN).heap (σ.heap victim).ph_right newN b
      = σ.heap b
    rw [set_parent_at, if_neg hbr]
    exact repl2_other σ victim newN b hvn hbn hbl
  · exact repl2_other σ victim newN b hvn hbn hbl

theorem repl3_newN (σ : St) (victim newN : Nat) (hvn : victim ≠ newN)
    (hnl : (σ.heap victim).ph_left ≠ newN)
    (hnr : (σ.heap victim).ph_right ≠ newN) :
    (repl3 σ victim newN).heap newN = σ.heap victim := by
  unfold repl3
  rw [repl2_victim_right σ victim newN hvn]
  split_ifs with hc
  · show ph_set_parent (repl2 σ victim newN).heap (σ.heap victim).ph_right newN
      newN = σ.heap victim
    rw [set_parent_at, if_neg (Ne.symm hnr)]
    exact repl2_newN σ victim newN hvn hnl
  · exact repl2_newN σ victim newN hvn hnl

theorem repl3_agree (σ : St) (victim newN b : Nat) (hvn : victim ≠ newN)
    (heven : newN % 2 = 0) (hbn : b ≠ newN) :
    agreeOn σ.heap (repl3 σ victim newN).heap b := by
  unfold repl3
  rw [repl2_victim_right σ victim newN hvn]
  split_ifs with hc
  · obtain ⟨a1, a2, a3⟩ := repl2_agree σ victim newN b hvn heven hbn
    show agreeOn σ.heap
      (ph_set_parent (repl2 σ victim newN).heap (σ.heap victim).ph_right newN) b
    refine ⟨?_, ?_, ?_⟩
    · rw [set_parent_left]; exact a1
    · rw [set_parent_right]; exact a2
    · rw [set_parent_at]
      split_ifs with hbr
      · rw [← hbr]
        show (newN + ((repl2 σ victim newN).heap b).ph_parent_color % 2) % 2 = _
        omega
      · exact a3
  · exact repl2_agree σ victim newN b hvn heven hbn

theorem repl3_root (σ : St) (victim newN : Nat) :
    (repl3 σ victim newN).root = σ.root := by
  unfold repl3
  split_ifs <;> exact repl2_root σ victim newN

theorem change_child_heap_other (old newN parent : Nat) (σ : St) (b : Nat)
    (hbp : b ≠ parent) :
    (ph_change_child old newN parent σ).heap b = σ.heap b := by
  unfold ph_change_child
  split_ifs <;> first | rfl | (show upd _ _ _ b = _ ; rw [upd_apply, if_neg hbp])

theorem change_child_heap_zero (old newN : Nat) (σ : St) :
    (ph_change_child old newN 0 σ).heap = σ.heap := by
  unfold ph_change_child
  simp

theorem change_child_parent_left (old newN parent : Nat) (σ : St)
    (hp0 : parent ≠ 0) (hslot : (σ.heap parent).ph_left = old) :
    (ph_change_child old newN parent σ).heap parent =
      { σ.heap parent with ph_left := newN } := by
  unfold ph_change_child
  rw [if_pos hp0, if_pos hslot]
  show upd _ _ _ parent = _
  rw [upd_apply, if_pos rfl]

theorem change_child_parent_right (old newN parent : Nat) (σ : St)
    (hp0 : parent ≠ 0) (hslot : (σ.heap parent).ph_left ≠ old) :
    (ph_change_child old newN parent σ).heap parent =
      { σ.heap parent with ph_right := newN } := by
  unfold ph_change_child
  rw [if_pos hp0, if_neg hslot]
  show upd _ _ _ parent = _
  rw [upd_apply, if_pos rfl]

theorem change_child_root (old newN parent : Nat) (σ : St) :
    (ph_change_child old newN parent σ).root =
      if parent = 0 then (⟨newN⟩ : PhRoot) else σ.root := by
  unfold ph_change_child
  split_ifs <;> simp_all

/-- Replacement leaves the root slot alone unless the victim was the root. -/
theorem replace_root (σ : St) (victim newN : Nat) :
    (ph_replace_node victim newN σ).root =
      if ph_parent σ.heap victim = 0 then (⟨newN⟩ : PhRoot) else σ.root := by
  rw [ph_replace_node_def, change_child_root, repl3_root]

/-- Nodes other than the replacement, the victim's children and the victim's
parent — in particular the victim itself — are completely untouched. -/
theorem replace_heap_other (σ : St) (victim newN : Nat) (hvn : victim ≠ newN)
    (b : Nat) (hbn : b ≠ newN) (hbl : b ≠ (σ.heap victim).ph_left)
    (hbr : b ≠ (σ.heap victim).ph_right) (hbp : b ≠ ph_parent σ.heap victim) :
    (ph_replace_node victim newN σ).heap b = σ.heap b := by
  rw [ph_replace_node_def, change_child_heap_other _ _ _ _ _ hbp]
  exact repl3_other σ victim newN b hvn hbn hbl hbr

/-- `*new = *victim`: the replacement ends up with the victim's exact record
(links and packed parent+color word). -/
theorem replace_heap_newN (σ : St) (victim newN : Nat) (hvn : victim ≠ newN)
    (hnl : (σ.heap victim).ph_left ≠ newN)
    (hnr : (σ.heap victim).ph_right ≠ newN)
    (hnp : ph_parent σ.heap victim ≠ newN) :
    (ph_replace_node victim newN σ).heap newN = σ.heap victim := by
  rw [ph_replace_node_def,
    change_child_heap_other victim newN (ph_parent σ.heap victim)
      (repl3 σ victim newN) newN (Ne.symm hnp)]
  exact repl3_newN σ victim newN hvn hnl hnr

/-- Every node other than the replacement and the victim's parent keeps its
child links and its color: the only other writes are the parent-word
repointings on the victim's children, which preserve the color bit. -/
theorem replace_heap_agree (σ : St) (victim newN : Nat) (hvn : victim ≠ newN)
    (heven : newN % 2 = 0) (b : Nat) (hbn : b ≠ newN)
    (hbp : b ≠ ph_parent σ.heap victim) :
    agreeOn σ.heap (ph_replace_node victim newN σ).heap b := by
  rw [ph_replace_node_def]
  have hcc := change_child_heap_other victim newN (ph_parent σ.heap victim)
    (repl3 σ victim newN) b hbp
  have h3 := repl3_agree σ victim newN b hvn heven hbn
  unfold agreeOn at h3 ⊢
  rw [hcc]
  exact h3

theorem replace_heap_parent_left (σ : St) (victim newN : Nat)
    (hvn : victim ≠ newN) (par : Nat) (hpar : par = ph_parent σ.heap victim)
    (hp0 : par ≠ 0) (hpn : par ≠ newN)
    (hpl : par ≠ (σ.heap victim).ph_left) (hpr : par ≠ (σ.heap victim).ph_right)
    (hslot : (σ.heap par).ph_left = victim) :
    (ph_replace_node victim newN σ).heap par =
      { σ.heap par with ph_left := newN } := by
  subst hpar
  rw [ph_replace_node_def, change_child_parent_left _ _ _ _ hp0 ?_]
  · rw [repl3_other σ victim newN _ hvn hpn hpl hpr]
  · rw [repl3_other σ victim newN _ hvn hpn hpl hpr]
    exact hslot

theorem replace_heap_parent_right (σ : St) (victim newN : Nat)
    (hvn : victim ≠ newN) (par : Nat) (hpar : par = ph_parent σ.heap victim)
    (hp0 : par ≠ 0) (hpn : par ≠ newN)
    (hpl : par ≠ (σ.heap victim).ph_left) (hpr : par ≠ (σ.heap victim).ph_right)
    (hslot : (σ.heap par).ph_left ≠ victim) :
    (ph_replace_node victim newN σ).heap par =
      { σ.heap par with ph_right := newN } := by
  subst hpar
  rw [ph_replace_node_def, change_child_parent_right _ _ _ _ hp0 ?_]
  · rw [repl3_other σ victim newN _ hvn hpn hpl hpr]
  · rw [repl3_other σ victim newN _ hvn hpn hpl hpr]
    exact hslot

/-- The abstract tree a heap represents from an address, reading only the
child links and the color bit; address 0 is the absent child.  The tree's
ids are the machine addresses, so the id at a position says which physical
node occupies that position. -/
inductive ReprT (h : Heap) : Nat → Tree → Prop
  | nil : ReprT h 0 .nil
  | node (a : Nat) (c : Color) (l r : Tree) :
      a ≠ 0 →
      ReprT h (h a).ph_left l →
      ReprT h (h a).ph_right r →
      c = (if (h a).ph_parent_color % 2 = 0 then Color.red else Color.black) →
      ReprT h a (.node c l a r)

theorem ReprT_nil_inv (h : Heap) (a : Nat) (hr : ReprT h a .nil) : a = 0 := by
  cases hr
  rfl

theorem ReprT_node_inv (h : Heap) (a : Nat) (c : Color) (l r : Tree) (x : Nat)
    (hr : ReprT h a (.node c l x r)) :
    a = x ∧ x ≠ 0 ∧ ReprT h (h x).ph_left l ∧ ReprT h (h x).ph_right r ∧
      c = (if (h x).ph_parent_color % 2 = 0 then Color.red else Color.black) := by
  cases hr with
  | node _ _ _ _ ha hl hr2 hc => exact ⟨rfl, ha, hl, hr2, hc⟩

theorem ReprT_root_cases (h : Heap) (a : Nat) (t : Tree) (hr : ReprT h a t) :
    a = 0 ∨ a ∈ inorderT t := by
  cases t with
  | nil => exact Or.inl (ReprT_nil_inv h a hr)
  | node c l x r =>
    obtain ⟨rfl, -, -, -, -⟩ := ReprT_node_inv h a c l r x hr
    exact Or.inr (by simp [inorderT])

/-- Representation only looks at the child links and the color bit, so any
heap agreeing on those at every represented address represents the same
tree. -/
theorem ReprT_frame (h h' : Heap) : ∀ (t : Tree) (a : Nat),
    ReprT h a t → (∀ b ∈ inorderT t, agreeOn h h' b) → ReprT h' a t := by
  intro t
  induction t with
  | nil =>
    intro a hr _
    rw [ReprT_nil_inv h a hr]
    exact ReprT.nil
  | node c l x r ihl ihr =>
    intro a hr hag
    obtain ⟨rfl, hx0, hl, hr2, hc⟩ := ReprT_node_inv h a c l r x hr
    obtain ⟨agl, agr, agc⟩ := hag a (by simp [inorderT])
    refine ReprT.node a c l r hx0 ?_ ?_ ?_
    · rw [agl]
      exact ihl _ hl (fun b hb => hag b (by simp [inorderT, hb]))
    · rw [agr]
      exact ihr _ hr2 (fun b hb => hag b (by simp [inorderT, hb]))
    · rw [agc]
      exact hc

/-- Parent words consistent with the tree structure: every linked node's
packed parent address is its structural parent (`pa` for the subtree root). -/
def parentsOk (h : Heap) : Tree → Nat → Bool
  | .nil, _ => true
  | .node _ l x r, pa =>
    (ph_parent_of (h x).ph_parent_color == pa) && parentsOk h l x && parentsOk h r x

theorem parentsOk_node_inv (h : Heap) (c : Color) (l : Tree) (x : Nat)
    (r : Tree) (pa : Nat)
    (hp : parentsOk h (.node c l x r) pa = true) :
    ph_parent_of (h x).ph_parent_color = pa ∧ parentsOk h l x = true ∧
      parentsOk h r x = true := by
  simp only [parentsOk, Bool.and_eq_true, beq_iff_eq] at hp
  exact ⟨hp.1.1, hp.1.2, hp.2⟩

theorem plug_append : ∀ (p q : Path) (t : Tree),
    plug t (p ++ q) = plug (plug t p) q := by
  intro p
  induction p with
  | nil => intro q t; rfl
  | cons e rest ih =>
    intro q t
    obtain ⟨d, c, x, sib⟩ := e
    cases d with
    | L =>
      show plug (.node c t x sib) (rest ++ q) = plug (plug (.node c t x sib) rest) q
      exact ih q _
    | R =>
      show plug (.node c sib x t) (rest ++ q) = plug (plug (.node c sib x t) rest) q
      exact ih q _

/-- The stored parent of a focus subtree's root, read off the context. -/
theorem parentsOk_plug_focus (h : Heap) : ∀ (ctx : Path) (t : Tree) (pa : Nat),
    parentsOk h (plug t ctx) pa = true →
    parentsOk h t (match ctx with | [] => pa | e :: _ => e.x) = true := by
  intro ctx
  induction ctx with
  | nil => intro t pa hp; exact hp
  | cons e rest ih =>
    intro t pa hp
    obtain ⟨d, c, x, sib⟩ := e
    cases d with
    | L =>
      have := ih (.node c t x sib) pa hp
      simp only [parentsOk, Bool.and_eq_true] at this
      exact this.1.2
    | R =>
      have := ih (.node c sib x t) pa hp
      simp only [parentsOk, Bool.and_eq_true] at this
      exact this.2

theorem mem_plug_focus (ctx : Path) (t : Tree) (x : Nat)
    (hx : x ∈ inorderT t) : x ∈ inorderT (plug t ctx) := by
  rw [plug_inorder]
  simp [hx]


/-- The parent word written by ph_replace_node onto the victim's left child:
the full resulting record — only the packed word changes, to the replacement's
address plus the preserved color bit. -/
theorem repl2_left_child (σ : St) (victim newN : Nat) (hvn : victim ≠ newN)
    (hl0 : (σ.heap victim).ph_left ≠ 0) (hln : (σ.heap victim).ph_left ≠ newN) :
    (repl2 σ victim newN).heap (σ.heap victim).ph_left =
      { σ.heap (σ.heap victim).ph_left with
        ph_parent_color :=
          newN + (σ.heap (σ.heap victim).ph_left).ph_parent_color % 2 } := by
  unfold repl2
  rw [repl1_victim σ victim newN hvn]
  split_ifs
  show ph_set_parent (repl1 σ victim newN).heap (σ.heap victim).ph_left newN
      (σ.heap victim).ph_left = _
  rw [set_parent_at, if_pos rfl, repl1_at, if_neg hln]

theorem repl3_left_child (σ : St) (victim newN : Nat) (hvn : victim ≠ newN)
    (hl0 : (σ.heap victim).ph_left ≠ 0) (hln : (σ.heap victim).ph_left ≠ newN)
    (hlr : (σ.heap victim).ph_left ≠ (σ.heap victim).ph_right) :
    (repl3 σ victim newN).heap (σ.heap victim).ph_left =
      { σ.heap (σ.heap victim).ph_left with
        ph_parent_color :=
          newN + (σ.heap (σ.heap victim).ph_left).ph_parent_color % 2 } := by
  unfold repl3
  rw [repl2_victim_right σ victim newN hvn]
  split_ifs with hc
  · show ph_set_parent (repl2 σ victim newN).heap (σ.heap victim).ph_right newN
      (σ.heap victim).ph_left = _
    rw [set_parent_at, if_neg hlr]
    exact repl2_left_child σ victim newN hvn hl0 hln
  · exact repl2_left_child σ victim newN hvn hl0 hln

theorem repl3_right_child (σ : St) (victim newN : Nat) (hvn : victim ≠ newN)
    (hr0 : (σ.heap victim).ph_right ≠ 0) (hrn : (σ.heap victim).ph_right ≠ newN)
    (hrl : (σ.heap victim).ph_right ≠ (σ.heap victim).ph_left) :
    (repl3 σ victim newN).heap (σ.heap victim).ph_right =
      { σ.heap (σ.heap victim).ph_right with
        ph_parent_color :=
          newN + (σ.heap (σ.heap victim).ph_right).ph_parent_color % 2 } := by
  unfold repl3
  rw [repl2_victim_right σ victim newN hvn]
  split_ifs
  show ph_set_parent (repl2 σ victim newN).heap (σ.heap victim).ph_right newN
      (σ.heap victim).ph_right = _
  rw [set_parent_at, if_pos rfl, repl2_other σ victim newN _ hvn hrn hrl]

theorem replace_heap_child_left (σ : St) (victim newN : Nat) (hvn : victim ≠ newN)
    (hl0 : (σ.heap victim).ph_left ≠ 0) (hln : (σ.heap victim).ph_left ≠ newN)
    (hlr : (σ.heap victim).ph_left ≠ (σ.heap victim).ph_right)
    (hlp : (σ.heap victim).ph_left ≠ ph_parent σ.heap victim) :
    (ph_replace_node victim newN σ).heap (σ.heap victim).ph_left =
      { σ.heap (σ.heap victim).ph_left with
        ph_parent_color :=
          newN + (σ.heap (σ.heap victim).ph_left).ph_parent_color % 2 } := by
  rw [ph_replace_node_def, change_child_heap_other _ _ _ _ _ hlp]
  exact repl3_left_child σ victim newN hvn hl0 hln hlr

theorem replace_heap_child_right (σ : St) (victim newN : Nat) (hvn : victim ≠ newN)
    (hr0 : (σ.heap victim).ph_right ≠ 0) (hrn : (σ.heap victim).ph_right ≠ newN)
    (hrl : (σ.heap victim).ph_right ≠ (σ.heap victim).ph_left)
    (hrp : (σ.heap victim).ph_right ≠ ph_parent σ.heap victim) :
    (ph_replace_node victim newN σ).heap (σ.heap victim).ph_right =
      { σ.heap (σ.heap victim).ph_right with
        ph_parent_color :=
          newN + (σ.heap (σ.heap victim).ph_right).ph_parent_color % 2 } := by
  rw [ph_replace_node_def, change_child_heap_other _ _ _ _ _ hrp]
  exact repl3_right_child σ victim newN hvn hr0 hrn hrl


/-- The child slot of a node in the direction a context entry descends. -/
def slotOf (h : Heap) (a : Nat) : Dir → Nat
  | .L => (h a).ph_left
  | .R => (h a).ph_right

def otherSlot (h : Heap) (a : Nat) : Dir → Nat
  | .L => (h a).ph_right
  | .R => (h a).ph_left

/-- The structural parent a context assigns to its focus (0 at the root). -/
def ctxParent : Path → Nat
  | [] => 0
  | e :: _ => e.x

/-- The root address of a plugged tree: the focus root when the context is
empty, the unchanged tree root otherwise. -/
def plugRoot : Path → Nat → Nat → Nat
  | [], _, x => x
  | _ :: _, a, _ => a

theorem nodup_mid (l1 l2 : List Nat) (a : Nat) (h : (l1 ++ a :: l2).Nodup) :
    a ∉ l1 ∧ a ∉ l2 ∧ ∀ b ∈ l2, b ∉ l1 := by
  rw [List.nodup_append] at h
  obtain ⟨h1, h2, hd⟩ := h
  rw [List.nodup_cons] at h2
  refine ⟨fun ha => hd ha ?_, h2.1, fun b hb hbl => hd hbl ?_⟩
  · exact List.mem_cons_self a l2
  · exact List.mem_cons_of_mem a hb

theorem Nodup_plug_focus : ∀ (ctx : Path) (t : Tree),
    (inorderT (plug t ctx)).Nodup → (inorderT t).Nodup := by
  intro ctx
  induction ctx with
  | nil => intro t h; exact h
  | cons e rest ih =>
    intro t h
    obtain ⟨d, c2, px, sib⟩ := e
    cases d with
    | L =>
      have hb : (inorderT t ++ px :: inorderT sib).Nodup := ih (.node c2 t px sib) h
      exact List.Nodup.of_append_left hb
    | R =>
      have hb : (inorderT sib ++ px :: inorderT t).Nodup := ih (.node c2 sib px t) h
      exact (List.nodup_cons.mp (List.Nodup.of_append_right hb)).2

/-- The focus of a plugged tree is itself represented, at its own root id. -/
theorem ReprT_plug_inv (h : Heap) : ∀ (ctx : Path) (c : Color) (l r : Tree)
    (x a : Nat), ReprT h a (plug (.node c l x r) ctx) → ReprT h x (.node c l x r) := by
  intro ctx
  induction ctx with
  | nil =>
    intro c l r x a hr
    have h1 := (ReprT_node_inv h a c l r x hr).1
    exact h1 ▸ hr
  | cons e rest ih =>
    intro c l r x a hr
    obtain ⟨d, c2, px, sib⟩ := e
    cases d with
    | L =>
      have hb := ih c2 (.node c l x r) sib px a hr
      obtain ⟨-, -, hl2, -, -⟩ := ReprT_node_inv h px c2 (.node c l x r) sib px hb
      have h1 := (ReprT_node_inv h _ c l r x hl2).1
      exact h1 ▸ hl2
    | R =>
      have hb := ih c2 sib (.node c l x r) px a hr
      obtain ⟨-, -, -, hr2, -⟩ := ReprT_node_inv h px c2 sib (.node c l x r) px hb
      have h1 := (ReprT_node_inv h _ c l r x hr2).1
      exact h1 ▸ hr2

theorem head_mem_plug (e : PathE) (rest : Path) (t : Tree) :
    e.x ∈ inorderT (plug t (e :: rest)) := by
  obtain ⟨d, c2, px, sib⟩ := e
  cases d with
  | L =>
    exact mem_plug_focus rest (.node c2 t px sib) px
      (by show px ∈ inorderT t ++ px :: inorderT sib; simp)
  | R =>
    exact mem_plug_focus rest (.node c2 sib px t) px
      (by show px ∈ inorderT sib ++ px :: inorderT t; simp)

/-- In a duplicate-free plugged tree the immediate parent recorded by the
context head is distinct from every id inside the focus. -/
theorem head_notin_focus (e : PathE) (rest : Path) (t : Tree)
    (hnd : (inorderT (plug t (e :: rest))).Nodup) :
    ∀ b ∈ inorderT t, b ≠ e.x := by
  obtain ⟨d, c2, px, sib⟩ := e
  cases d with
  | L =>
    have hndb : (inorderT t ++ px :: inorderT sib).Nodup :=
      Nodup_plug_focus rest (.node c2 t px sib) hnd
    have hm := nodup_mid (inorderT t) (inorderT sib) px hndb
    intro b hb he
    have he2 : b = px := he
    exact hm.1 (he2 ▸ hb)
  | R =>
    have hndb : (inorderT sib ++ px :: inorderT t).Nodup :=
      Nodup_plug_focus rest (.node c2 sib px t) hnd
    have hm := nodup_mid (inorderT sib) (inorderT t) px hndb
    intro b hb he
    have he2 : b = px := he
    exact hm.2.1 (he2 ▸ hb)

theorem ReprT_mem_ne_zero (h : Heap) : ∀ (t : Tree) (a : Nat),
    ReprT h a t → ∀ y ∈ inorderT t, y ≠ 0 := by
  intro t
  induction t with
  | nil =>
    intro a _ y hy
    simp [inorderT] at hy
  | node c l x r ihl ihr =>
    intro a hr y hy
    obtain ⟨rfl, hx0, hl, hr2, -⟩ := ReprT_node_inv h a c l r x hr
    simp only [inorderT, List.mem_append, List.mem_cons] at hy
    rcases hy with hy | hy | hy
    · exact ihl _ hl y hy
    · exact hy.symm ▸ hx0
    · exact ihr _ hr2 y hy


/-- The condition on the focus's immediate parent after replacement: its
slot toward the focus holds the new focus root, its other slot and its color
bit are unchanged; trivial at the root. -/
def parSpec (h h' : Heap) (x' : Nat) : Path → Prop
  | [] => True
  | e :: _ =>
    slotOf h' e.x e.d = x' ∧ otherSlot h' e.x e.d = otherSlot h e.x e.d ∧
      (h' e.x).ph_parent_color % 2 = (h e.x).ph_parent_color % 2

/-- Transport of representation across ph_replace_node's writes: if the old
heap represents the plugged tree, the new heap agrees with it away from the
focus and the focus's immediate parent, the parent's one child slot now holds
the new focus root (its other slot and color untouched), and the new focus
subtree is itself represented, then the new heap represents the same context
plugged with the new focus. -/
theorem replace_transport (h h' : Heap) : ∀ (ctx : Path) (c : Color)
    (l r : Tree) (x : Nat) (c' : Color) (l' r' : Tree) (x' : Nat) (a : Nat),
    ReprT h a (plug (.node c l x r) ctx) →
    (inorderT (plug (.node c l x r) ctx)).Nodup →
    ReprT h' x' (.node c' l' x' r') →
    (∀ b ∈ inorderT (plug (.node c l x r) ctx),
      b ∉ inorderT (.node c l x r) → b ≠ ctxParent ctx → agreeOn h h' b) →
    parSpec h h' x' ctx →
    ReprT h' (plugRoot ctx a x') (plug (.node c' l' x' r') ctx) := by
  intro ctx
  induction ctx with
  | nil =>
    intro c l r x c' l' r' x' a hr hnd hfoc hag hpar
    exact hfoc
  | cons e rest ih =>
    intro c l r x c' l' r' x' a hr hnd hfoc hag hpar
    obtain ⟨d, c2, px, sib⟩ := e
    cases d with
    | L =>
      have hr2 : ReprT h a (plug (.node c2 (.node c l x r) px sib) rest) := hr
      have hnd2 : (inorderT (plug (.node c2 (.node c l x r) px sib) rest)).Nodup := hnd
      have hb : ReprT h px (.node c2 (.node c l x r) px sib) :=
        ReprT_plug_inv h rest c2 (.node c l x r) sib px a hr2
      obtain ⟨-, hpx0, hbl, hbs, hbc⟩ :=
        ReprT_node_inv h px c2 (.node c l x r) sib px hb
      have hndb : (inorderT (.node c l x r) ++ px :: inorderT sib).Nodup :=
        Nodup_plug_focus rest (.node c2 (.node c l x r) px sib) hnd2
      have hm := nodup_mid (inorderT (.node c l x r)) (inorderT sib) px hndb
      have hp1 : (h' px).ph_left = x' := hpar.1
      have hp2 : (h' px).ph_right = (h px).ph_right := hpar.2.1
      have hp3 : (h' px).ph_parent_color % 2 = (h px).ph_parent_color % 2 := hpar.2.2
      have hfoc2 : ReprT h' px (.node c2 (.node c' l' x' r') px sib) := by
        refine ReprT.node px c2 (.node c' l' x' r') sib hpx0 ?_ ?_ ?_
        · rw [hp1]
          exact hfoc
        · rw [hp2]
          refine ReprT_frame h h' sib ((h px).ph_right) hbs ?_
          intro b hb2
          refine hag b ?_ ?_ ?_
          · exact mem_plug_focus rest (.node c2 (.node c l x r) px sib) b
              (by show b ∈ inorderT (.node c l x r) ++ px :: inorderT sib; simp [hb2])
          · exact hm.2.2 b hb2
          · intro he
            have he2 : b = px := he
            exact hm.2.1 (he2 ▸ hb2)
        · rw [hp3]
          exact hbc
      have hag2 : ∀ b ∈ inorderT (plug (.node c2 (.node c l x r) px sib) rest),
          b ∉ inorderT (.node c2 (.node c l x r) px sib) → b ≠ ctxParent rest →
          agreeOn h h' b := by
        intro b hbm hbn hbp
        refine hag b hbm ?_ ?_
        · intro hbin
          exact hbn (by
                      show b ∈ inorderT (.node c l x r) ++ px :: inorderT sib
                      simp [hbin])
        · intro he
          have he2 : b = px := he
          exact hbn (by
                      show b ∈ inorderT (.node c l x r) ++ px :: inorderT sib
                      simp [he2])
      have hpar2 : parSpec h h' px rest := by
        cases rest with
        | nil => exact trivial
        | cons e2 rest2 =>
          obtain ⟨d2, c3, qx, sib2⟩ := e2
          cases d2 with
          | L =>
            have hb2 : ReprT h qx
                (.node c3 (.node c2 (.node c l x r) px sib) qx sib2) :=
              ReprT_plug_inv h rest2 c3 (.node c2 (.node c l x r) px sib) sib2 qx a hr2
            obtain ⟨-, -, hq1, -, -⟩ :=
              ReprT_node_inv h qx c3 (.node c2 (.node c l x r) px sib) sib2 qx hb2
            have hslot : (h qx).ph_left = px :=
              (ReprT_node_inv h _ c2 (.node c l x r) sib px hq1).1
            have hndb2 : (inorderT (.node c2 (.node c l x r) px sib) ++
                qx :: inorderT sib2).Nodup :=
              Nodup_plug_focus rest2
                (.node c3 (.node c2 (.node c l x r) px sib) qx sib2) hnd2
            have hm2 := nodup_mid (inorderT (.node c2 (.node c l x r) px sib))
              (inorderT sib2) qx hndb2
            have hqmem : qx ∈ inorderT (plug (.node c l x r)
                (PathE.mk .L c2 px sib :: PathE.mk .L c3 qx sib2 :: rest2)) :=
              mem_plug_focus rest2 (.node c3 (.node c2 (.node c l x r) px sib) qx sib2)
                qx (by
                     show qx ∈ inorderT (.node c2 (.node c l x r) px sib) ++ qx :: inorderT sib2
                     simp)
            have hag3 : agreeOn h h' qx := by
              refine hag qx hqmem ?_ ?_
              · intro hin
                exact hm2.1 (by
                              show qx ∈ inorderT (.node c l x r) ++ px :: inorderT sib
                              simp [hin])
              · intro he
                have he2 : qx = px := he
                exact hm2.1 (by
                              show qx ∈ inorderT (.node c l x r) ++ px :: inorderT sib
                              simp [he2])
            obtain ⟨ag1, ag2, ag3c⟩ := hag3
            refine ⟨?_, ?_, ag3c⟩
            · show (h' qx).ph_left = px
              rw [ag1, hslot]
            · show (h' qx).ph_right = (h qx).ph_right
              rw [ag2]
          | R =>
            have hb2 : ReprT h qx
                (.node c3 sib2 qx (.node c2 (.node c l x r) px sib)) :=
              ReprT_plug_inv h rest2 c3 sib2 (.node c2 (.node c l x r) px sib) qx a hr2
            obtain ⟨-, -, -, hq2, -⟩ :=
              ReprT_node_inv h qx c3 sib2 (.node c2 (.node c l x r) px sib) qx hb2
            have hslot : (h qx).ph_right = px :=
              (ReprT_node_inv h _ c2 (.node c l x r) sib px hq2).1
            have hndb2 : (inorderT sib2 ++
                qx :: inorderT (.node c2 (.node c l x r) px sib)).Nodup :=
              Nodup_plug_focus rest2
                (.node c3 sib2 qx (.node c2 (.node c l x r) px sib)) hnd2
            have hm2 := nodup_mid (inorderT sib2)
              (inorderT (.node c2 (.node c l x r) px sib)) qx hndb2
            have hqmem : qx ∈ inorderT (plug (.node c l x r)
                (PathE.mk .L c2 px sib :: PathE.mk .R c3 qx sib2 :: rest2)) :=
              mem_plug_focus rest2 (.node c3 sib2 qx (.node c2 (.node c l x r) px sib))
                qx (by
                     show qx ∈ inorderT sib2 ++ qx :: inorderT (.node c2 (.node c l x r) px sib)
                     simp)
            have hag3 : agreeOn h h' qx := by
              refine hag qx hqmem ?_ ?_
              · intro hin
                exact hm2.2.1 (by
                                show qx ∈ inorderT (.node c l x r) ++ px :: inorderT sib
                                simp [hin])
              · intro he
                have he2 : qx = px := he
                exact hm2.2.1 (by
                                show qx ∈ inorderT (.node c l x r) ++ px :: inorderT sib
                                simp [he2])
            obtain ⟨ag1, ag2, ag3c⟩ := hag3
            refine ⟨?_, ?_, ag3c⟩
            · show (h' qx).ph_right = px
              rw [ag2, hslot]
            · show (h' qx).ph_left = (h qx).ph_left
              rw [ag1]
      have hres := ih c2 (.node c l x r) sib px c2 (.node c' l' x' r') sib px a
        hr2 hnd2 hfoc2 hag2 hpar2
      have hroot : plugRoot rest a px = a := by
        cases rest with
        | cons e2 rest2 => rfl
        | nil =>
          show px = a
          exact ((ReprT_node_inv h a c2 (.node c l x r) sib px hr2).1).symm
      show ReprT h' a (plug (.node c2 (.node c' l' x' r') px sib) rest)
      exact hroot ▸ hres
    | R =>
      have hr2 : ReprT h a (plug (.node c2 sib px (.node c l x r)) rest) := hr
      have hnd2 : (inorderT (plug (.node c2 sib px (.node c l x r)) rest)).Nodup := hnd
      have hb : ReprT h px (.node c2 sib px (.node c l x r)) :=
        ReprT_plug_inv h rest c2 sib (.node c l x r) px a hr2
      obtain ⟨-, hpx0, hbs, hbl, hbc⟩ :=
        ReprT_node_inv h px c2 sib (.node c l x r) px hb
      have hndb : (inorderT sib ++ px :: inorderT (.node c l x r)).Nodup :=
        Nodup_plug_focus rest (.node c2 sib px (.node c l x r)) hnd2
      have hm := nodup_mid (inorderT sib) (inorderT (.node c l x r)) px hndb
      have hp1 : (h' px).ph_right = x' := hpar.1
      have hp2 : (h' px).ph_left = (h px).ph_left := hpar.2.1
      have hp3 : (h' px).ph_parent_color % 2 = (h px).ph_parent_color % 2 := hpar.2.2
      have hfoc2 : ReprT h' px (.node c2 sib px (.node c' l' x' r')) := by
        refine ReprT.node px c2 sib (.node c' l' x' r') hpx0 ?_ ?_ ?_
        · rw [hp2]
          refine ReprT_frame h h' sib ((h px).ph_left) hbs ?_
          intro b hb2
          refine hag b ?_ ?_ ?_
          · exact mem_plug_focus rest (.node c2 sib px (.node c l x r)) b
              (by show b ∈ inorderT sib ++ px :: inorderT (.node c l x r); simp [hb2])
          · intro hbin
            exact hm.2.2 b hbin hb2
          · intro he
            have he2 : b = px := he
            exact hm.1 (he2 ▸ hb2)
        · rw [hp1]
          exact hfoc
        · rw [hp3]
          exact hbc
      have hag2 : ∀ b ∈ inorderT (plug (.node c2 sib px (.node c l x r)) rest),
          b ∉ inorderT (.node c2 sib px (.node c l x r)) → b ≠ ctxParent rest →
          agreeOn h h' b := by
        intro b hbm hbn hbp
        refine hag b hbm ?_ ?_
        · intro hbin
          exact hbn (by
                      show b ∈ inorderT sib ++ px :: inorderT (.node c l x r)
                      simp [hbin])
        · intro he
          have he2 : b = px := he
          exact hbn (by
                      show b ∈ inorderT sib ++ px :: inorderT (.node c l x r)
                      simp [he2])
      have hpar2 : parSpec h h' px rest := by
        cases rest with
        | nil => exact trivial
        | cons e2 rest2 =>
          obtain ⟨d2, c3, qx, sib2⟩ := e2
          cases d2 with
          | L =>
            have hb2 : ReprT h qx
                (.node c3 (.node c2 sib px (.node c l x r)) qx sib2) :=
              ReprT_plug_inv h rest2 c3 (.node c2 sib px (.node c l x r)) sib2 qx a hr2
            obtain ⟨-, -, hq1, -, -⟩ :=
              ReprT_node_inv h qx c3 (.node c2 sib px (.node c l x r)) sib2 qx hb2
            have hslot : (h qx).ph_left = px :=
              (ReprT_node_inv h _ c2 sib (.node c l x r) px hq1).1
            have hndb2 : (inorderT (.node c2 sib px (.node c l x r)) ++
                qx :: inorderT sib2).Nodup :=
              Nodup_plug_focus rest2
                (.node c3 (.node c2 sib px (.node c l x r)) qx sib2) hnd2
            have hm2 := nodup_mid (inorderT (.node c2 sib px (.node c l x r)))
              (inorderT sib2) qx hndb2
            have hqmem : qx ∈ inorderT (plug (.node c l x r)
                (PathE.mk .R c2 px sib :: PathE.mk .L c3 qx sib2 :: rest2)) :=
              mem_plug_focus rest2 (.node c3 (.node c2 sib px (.node c l x r)) qx sib2)
                qx (by
                     show qx ∈ inorderT (.node c2 sib px (.node c l x r)) ++ qx :: inorderT sib2
                     simp)
            have hag3 : agreeOn h h' qx := by
              refine hag qx hqmem ?_ ?_
              · intro hin
                exact hm2.1 (by
                              show qx ∈ inorderT sib ++ px :: inorderT (.node c l x r)
                              simp [hin])
              · intro he
                have he2 : qx = px := he
                exact hm2.1 (by
                              show qx ∈ inorderT sib ++ px :: inorderT (.node c l x r)
                              simp [he2])
            obtain ⟨ag1, ag2, ag3c⟩ := hag3
            refine ⟨?_, ?_, ag3c⟩
            · show (h' qx).ph_left = px
              rw [ag1, hslot]
            · show (h' qx).ph_right = (h qx).ph_right
              rw [ag2]
          | R =>
            have hb2 : ReprT h qx
                (.node c3 sib2 qx (.node c2 sib px (.node c l x r))) :=
              ReprT_plug_inv h rest2 c3 sib2 (.node c2 sib px (.node c l x r)) qx a hr2
            obtain ⟨-, -, -, hq2, -⟩ :=
              ReprT_node_inv h qx c3 sib2 (.node c2 sib px (.node c l x r)) qx hb2
            have hslot : (h qx).ph_right = px :=
              (ReprT_node_inv h _ c2 sib (.node c l x r) px hq2).1
            have hndb2 : (inorderT sib2 ++
                qx :: inorderT (.node c2 sib px (.node c l x r))).Nodup :=
              Nodup_plug_focus rest2
                (.node c3 sib2 qx (.node c2 sib px (.node c l x r))) hnd2
            have hm2 := nodup_mid (inorderT sib2)
              (inorderT (.node c2 sib px (.node c l x r))) qx hndb2
            have hqmem : qx ∈ inorderT (plug (.node c l x r)
                (PathE.mk .R c2 px sib :: PathE.mk .R c3 qx sib2 :: rest2)) :=
              mem_plug_focus rest2 (.node c3 sib2 qx (.node c2 sib px (.node c l x r)))
                qx (by
                     show qx ∈ inorderT sib2 ++ qx :: inorderT (.node c2 sib px (.node c l x r))
                     simp)
            have hag3 : agreeOn h h' qx := by
              refine hag qx hqmem ?_ ?_
              · intro hin
                exact hm2.2.1 (by
                                show qx ∈ inorderT sib ++ px :: inorderT (.node c l x r)
                                simp [hin])
              · intro he
                have he2 : qx = px := he
                exact hm2.2.1 (by
                                show qx ∈ inorderT sib ++ px :: inorderT (.node c l x r)
                                simp [he2])
            obtain ⟨ag1, ag2, ag3c⟩ := hag3
            refine ⟨?_, ?_, ag3c⟩
            · show (h' qx).ph_right = px
              rw [ag2, hslot]
            · show (h' qx).ph_left = (h qx).ph_left
              rw [ag1]
      have hres := ih c2 sib (.node c l x r) px c2 sib (.node c' l' x' r') px a
        hr2 hnd2 hfoc2 hag2 hpar2
      have hroot : plugRoot rest a px = a := by
        cases rest with
        | cons e2 rest2 => rfl
        | nil =>
          show px = a
          exact ((ReprT_node_inv h a c2 sib (.node c l x r) px hr2).1).symm
      show ReprT h' a (plug (.node c2 sib px (.node c' l' x' r')) rest)
      exact hroot ▸ hres


/-- C8: for every linked victim node (presented as the focus of a zipper
context over the represented tree, with duplicate-free addresses and correct
parent words) and every fresh aligned node not in the tree, `ph_replace_node`
(lib/phtree.c lines 296-311) copies the victim's whole record — links and
packed parent+color word — onto the fresh node, repoints the parent words of
the victim's children to the fresh node, repoints the victim's parent's child
slot (or the root slot when the victim was the root) to the fresh node, and
performs no rebalancing: the resulting heap represents, from the resulting
root, a tree of the exact same shape, in-order and colors, differing only in
that the fresh address occupies the replaced position; and every node other
than the fresh one, the victim's two children and the victim's parent is
completely unchanged (in particular the children keep their links and color). -/
theorem claim_C8_replace_node (σ : St) (victim newN : Nat) (ctx : Path)
    (c : Color) (tl tr : Tree)
    (hrepr : ReprT σ.heap σ.root.ph_node (plug (.node c tl victim tr) ctx))
    (hpok : parentsOk σ.heap (plug (.node c tl victim tr) ctx) 0 = true)
    (hnd : (inorderT (plug (.node c tl victim tr) ctx)).Nodup)
    (hfresh : newN ∉ inorderT (plug (.node c tl victim tr) ctx))
    (hn0 : newN ≠ 0) (halign : newN % 4 = 0) :
    ReprT (ph_replace_node victim newN σ).heap
      (ph_replace_node victim newN σ).root.ph_node
      (plug (.node c tl newN tr) ctx) ∧
    (ph_replace_node victim newN σ).heap newN = σ.heap victim ∧
    ((σ.heap victim).ph_left ≠ 0 →
      ph_parent (ph_replace_node victim newN σ).heap (σ.heap victim).ph_left = newN ∧
      agreeOn σ.heap (ph_replace_node victim newN σ).heap (σ.heap victim).ph_left) ∧
    ((σ.heap victim).ph_right ≠ 0 →
      ph_parent (ph_replace_node victim newN σ).heap (σ.heap victim).ph_right = newN ∧
      agreeOn σ.heap (ph_replace_node victim newN σ).heap (σ.heap victim).ph_right) ∧
    (∀ b, b ≠ newN → b ≠ (σ.heap victim).ph_left → b ≠ (σ.heap victim).ph_right →
      b ≠ ph_parent σ.heap victim →
      (ph_replace_node victim newN σ).heap b = σ.heap b) := by
  have heven : newN % 2 = 0 := by omega
  have hvmem : victim ∈ inorderT (plug (.node c tl victim tr) ctx) :=
    mem_plug_focus ctx (.node c tl victim tr) victim (by simp [inorderT])
  have hvn : victim ≠ newN := fun he => hfresh (he ▸ hvmem)
  have hids : ∀ y ∈ inorderT (plug (.node c tl victim tr) ctx), y ≠ 0 :=
    ReprT_mem_ne_zero σ.heap _ _ hrepr
  have hvtree : ReprT σ.heap victim (.node c tl victim tr) :=
    ReprT_plug_inv σ.heap ctx c tl tr victim σ.root.ph_node hrepr
  obtain ⟨-, hv0, hltree, hrtree, hccol⟩ :=
    ReprT_node_inv σ.heap victim c tl tr victim hvtree
  have hpaeq : ph_parent σ.heap victim = ctxParent ctx := by
    have h2 := (parentsOk_node_inv σ.heap c tl victim tr _
      (parentsOk_plug_focus σ.heap ctx (.node c tl victim tr) 0 hpok)).1
    cases ctx with
    | nil => exact h2
    | cons e rest => exact h2
  have hpanotin : ∀ b ∈ inorderT (.node c tl victim tr),
      b ≠ ph_parent σ.heap victim := by
    rw [hpaeq]
    cases ctx with
    | nil =>
      intro b hb
      exact hids b (mem_plug_focus [] (.node c tl victim tr) b hb)
    | cons e rest =>
      exact head_notin_focus e rest (.node c tl victim tr) hnd
  have hnl : (σ.heap victim).ph_left ≠ newN := by
    rcases ReprT_root_cases σ.heap _ tl hltree with h0 | hm
    · rw [h0]
      exact Ne.symm hn0
    · exact fun he => hfresh (he ▸ mem_plug_focus ctx (.node c tl victim tr) _
        (by simp [inorderT, hm]))
  have hnr : (σ.heap victim).ph_right ≠ newN := by
    rcases ReprT_root_cases σ.heap _ tr hrtree with h0 | hm
    · rw [h0]
      exact Ne.symm hn0
    · exact fun he => hfresh (he ▸ mem_plug_focus ctx (.node c tl victim tr) _
        (by simp [inorderT, hm]))
  have hnp : ph_parent σ.heap victim ≠ newN := by
    rw [hpaeq]
    cases ctx with
    | nil => exact Ne.symm hn0
    | cons e rest =>
      exact fun he => hfresh (he ▸ head_mem_plug e rest (.node c tl victim tr))
  have hnewrec : (ph_replace_node victim newN σ).heap newN = σ.heap victim :=
    replace_heap_newN σ victim newN hvn hnl hnr hnp
  have hagf : ∀ b ∈ inorderT (.node c tl victim tr),
      agreeOn σ.heap (ph_replace_node victim newN σ).heap b := by
    intro b hb
    refine replace_heap_agree σ victim newN hvn heven b ?_ (hpanotin b hb)
    exact fun he => hfresh (he ▸ mem_plug_focus ctx (.node c tl victim tr) b hb)
  have hfoc : ReprT (ph_replace_node victim newN σ).heap newN
      (.node c tl newN tr) := by
    refine ReprT.node newN c tl tr hn0 ?_ ?_ ?_
    · rw [hnewrec]
      refine ReprT_frame σ.heap _ tl _ hltree ?_
      intro b hb
      exact hagf b (by simp [inorderT, hb])
    · rw [hnewrec]
      refine ReprT_frame σ.heap _ tr _ hrtree ?_
      intro b hb
      exact hagf b (by simp [inorderT, hb])
    · rw [hnewrec]
      exact hccol
  have hagT : ∀ b ∈ inorderT (plug (.node c tl victim tr) ctx),
      b ∉ inorderT (.node c tl victim tr) → b ≠ ctxParent ctx →
      agreeOn σ.heap (ph_replace_node victim newN σ).heap b := by
    intro b hbm hbn hbp
    rw [← hpaeq] at hbp
    refine replace_heap_agree σ victim newN hvn heven b ?_ hbp
    exact fun he => hfresh (he ▸ hbm)
  have hparT : parSpec σ.heap (ph_replace_node victim newN σ).heap newN ctx := by
    cases ctx with
    | nil => exact trivial
    | cons e rest =>
      obtain ⟨d, c2, px, sib⟩ := e
      cases d with
      | L =>
        have hb := ReprT_plug_inv σ.heap rest c2 (.node c tl victim tr) sib px
          σ.root.ph_node hrepr
        obtain ⟨-, hpx0, hbl, hbs, -⟩ :=
          ReprT_node_inv σ.heap px c2 (.node c tl victim tr) sib px hb
        have hslot : (σ.heap px).ph_left = victim :=
          (ReprT_node_inv σ.heap _ c tl tr victim hbl).1
        have hpxmem : px ∈ inorderT (plug (.node c tl victim tr)
            (PathE.mk .L c2 px sib :: rest)) :=
          head_mem_plug (PathE.mk .L c2 px sib) rest (.node c tl victim tr)
        have hpn : px ≠ newN := fun he => hfresh (he ▸ hpxmem)
        have hn2 : ∀ b ∈ inorderT (.node c tl victim tr), b ≠ px :=
          head_notin_focus (PathE.mk .L c2 px sib) rest (.node c tl victim tr) hnd
        have hpl : px ≠ (σ.heap victim).ph_left := by
          rcases ReprT_root_cases σ.heap _ tl hltree with h0 | hm
          · rw [h0]
            exact hpx0
          · exact fun he => hn2 _ (by simp [inorderT, hm]) he.symm
        have hpr : px ≠ (σ.heap victim).ph_right := by
          rcases ReprT_root_cases σ.heap _ tr hrtree with h0 | hm
          · rw [h0]
            exact hpx0
          · exact fun he => hn2 _ (by simp [inorderT, hm]) he.symm
        have hrec := replace_heap_parent_left σ victim newN hvn px hpaeq.symm
          hpx0 hpn hpl hpr hslot
        refine ⟨?_, ?_, ?_⟩
        · show ((ph_replace_node victim newN σ).heap px).ph_left = newN
          rw [hrec]
        · show ((ph_replace_node victim newN σ).heap px).ph_right =
            (σ.heap px).ph_right
          rw [hrec]
        · show ((ph_replace_node victim newN σ).heap px).ph_parent_color % 2 =
            (σ.heap px).ph_parent_color % 2
          rw [hrec]
      | R =>
        have hb := ReprT_plug_inv σ.heap rest c2 sib (.node c tl victim tr) px
          σ.root.ph_node hrepr
        obtain ⟨-, hpx0, hbl, hbr2, -⟩ :=
          ReprT_node_inv σ.heap px c2 sib (.node c tl victim tr) px hb
        have hslot : (σ.heap px).ph_left ≠ victim := by
          rcases ReprT_root_cases σ.heap _ sib hbl with h0 | hm
          · rw [h0]
            exact Ne.symm hv0
          · intro he
            have hvin : victim ∈ inorderT sib := he ▸ hm
            have hndb : (inorderT sib ++ px :: inorderT (.node c tl victim tr)).Nodup :=
              Nodup_plug_focus rest (.node c2 sib px (.node c tl victim tr)) hnd
            have hm2 := nodup_mid (inorderT sib) (inorderT (.node c tl victim tr))
              px hndb
            exact hm2.2.2 victim (by simp [inorderT]) hvin
        have hpxmem : px ∈ inorderT (plug (.node c tl victim tr)
            (PathE.mk .R c2 px sib :: rest)) :=
          head_mem_plug (PathE.mk .R c2 px sib) rest (.node c tl victim tr)
        have hpn : px ≠ newN := fun he => hfresh (he ▸ hpxmem)
        have hn2 : ∀ b ∈ inorderT (.node c tl victim tr), b ≠ px :=
          head_notin_focus (PathE.mk .R c2 px sib) rest (.node c tl victim tr) hnd
        have hpl : px ≠ (σ.heap victim).ph_left := by
          rcases ReprT_root_cases σ.heap _ tl hltree with h0 | hm
          · rw [h0]
            exact hpx0
          · exact fun he => hn2 _ (by simp [inorderT, hm]) he.symm
        have hpr : px ≠ (σ.heap victim).ph_right := by
          rcases ReprT_root_cases σ.heap _ tr hrtree with h0 | hm
          · rw [h0]
            exact hpx0
          · exact fun he => hn2 _ (by simp [inorderT, hm]) he.symm
        have hrec := replace_heap_parent_right σ victim newN hvn px hpaeq.symm
          hpx0 hpn hpl hpr hslot
        refine ⟨?_, ?_, ?_⟩
        · show ((ph_replace_node victim newN σ).heap px).ph_right = newN
          rw [hrec]
        · show ((ph_replace_node victim newN σ).heap px).ph_left =
            (σ.heap px).ph_left
          rw [hrec]
        · show ((ph_replace_node victim newN σ).heap px).ph_parent_color % 2 =
            (σ.heap px).ph_parent_color % 2
          rw [hrec]
  have htrans := replace_transport σ.heap (ph_replace_node victim newN σ).heap
    ctx c tl tr victim c tl tr newN σ.root.ph_node hrepr hnd hfoc hagT hparT
  have hrootpn : (ph_replace_node victim newN σ).root.ph_node =
      plugRoot ctx σ.root.ph_node newN := by
    have h0 := replace_root σ victim newN
    rw [hpaeq] at h0
    cases ctx with
    | nil => simp [ctxParent, plugRoot, h0]
    | cons e rest =>
      have hex0 : ctxParent (e :: rest) ≠ 0 := by
        show e.x ≠ 0
        exact hids e.x (head_mem_plug e rest (.node c tl victim tr))
      rw [if_neg hex0] at h0
      rw [h0]
      rfl
  refine ⟨by rw [hrootpn]; exact htrans, hnewrec, ?_, ?_, ?_⟩
  · intro hl0
    have hlmem : (σ.heap victim).ph_left ∈ inorderT tl := by
      rcases ReprT_root_cases σ.heap _ tl hltree with h0 | hm
      · exact absurd h0 hl0
      · exact hm
    have hndf : (inorderT tl ++ victim :: inorderT tr).Nodup :=
      Nodup_plug_focus ctx (.node c tl victim tr) hnd
    have hmf := nodup_mid (inorderT tl) (inorderT tr) victim hndf
    have hlr : (σ.heap victim).ph_left ≠ (σ.heap victim).ph_right := by
      rcases ReprT_root_cases σ.heap _ tr hrtree with h0 | hm
      · rw [h0]
        exact hl0
      · intro he
        exact hmf.2.2 _ hm (he ▸ hlmem)
    have hlp : (σ.heap victim).ph_left ≠ ph_parent σ.heap victim :=
      hpanotin _ (by simp [inorderT, hlmem])
    have hrecL := replace_heap_child_left σ victim newN hvn hl0 hnl hlr hlp
    constructor
    · show ph_parent_of ((ph_replace_node victim newN σ).heap
        (σ.heap victim).ph_left).ph_parent_color = newN
      rw [hrecL]
      show ph_parent_of (newN + (σ.heap (σ.heap victim).ph_left).ph_parent_color % 2)
        = newN
      unfold ph_parent_of
      omega
    · exact hagf _ (by simp [inorderT, hlmem])
  · intro hr0
    have hrmem : (σ.heap victim).ph_right ∈ inorderT tr := by
      rcases ReprT_root_cases σ.heap _ tr hrtree with h0 | hm
      · exact absurd h0 hr0
      · exact hm
    have hndf : (inorderT tl ++ victim :: inorderT tr).Nodup :=
      Nodup_plug_focus ctx (.node c tl victim tr) hnd
    have hmf := nodup_mid (inorderT tl) (inorderT tr) victim hndf
    have hrl : (σ.heap victim).ph_right ≠ (σ.heap victim).ph_left := by
      rcases ReprT_root_cases σ.heap _ tl hltree with h0 | hm
      · rw [h0]
        exact hr0
      · intro he
        exact hmf.2.2 _ hrmem (he.symm ▸ hm)
    have hrp : (σ.heap victim).ph_right ≠ ph_parent σ.heap victim :=
      hpanotin _ (by simp [inorderT, hrmem])
    have hrecR := replace_heap_child_right σ victim newN hvn hr0 hnr hrl hrp
    constructor
    · show ph_parent_of ((ph_replace_node victim newN σ).heap
        (σ.heap victim).ph_right).ph_parent_color = newN
      rw [hrecR]
      show ph_parent_of (newN + (σ.heap (σ.heap victim).ph_right).ph_parent_color % 2)
        = newN
      unfold ph_parent_of
      omega
    · exact hagf _ (by simp [inorderT, hrmem])
  · intro b hbn hbl hbr hbp
    exact replace_heap_other σ victim newN hvn b hbn hbl hbr hbp


/-- A concrete heap for exercising replacement: a BLACK root at address 4
with RED children 8 and 12, and a fresh empty node at the aligned address
16. -/
def C8heap : Heap := fun a =>
  if a = 4 then ⟨12, 8, 1⟩
  else if a = 8 then ⟨0, 0, 4⟩
  else if a = 12 then ⟨0, 0, 4⟩
  else if a = 16 then ⟨0, 0, 16⟩
  else ⟨0, 0, 0⟩

def C8st : St := ⟨C8heap, ⟨4⟩⟩

/-- Witness for C8: replacing the root node 4 of the concrete three-node tree
by the fresh aligned node 16 satisfies every hypothesis and hence every
conclusion of the replacement theorem. -/
theorem claim_C8_witness :
    ReprT (ph_replace_node 4 16 C8st).heap (ph_replace_node 4 16 C8st).root.ph_node
      (plug (.node .black (.node .red .nil 8 .nil) 16 (.node .red .nil 12 .nil))
        []) ∧
    (ph_replace_node 4 16 C8st).heap 16 = C8st.heap 4 ∧
    ((C8st.heap 4).ph_left ≠ 0 →
      ph_parent (ph_replace_node 4 16 C8st).heap (C8st.heap 4).ph_left = 16 ∧
      agreeOn C8st.heap (ph_replace_node 4 16 C8st).heap (C8st.heap 4).ph_left) ∧
    ((C8st.heap 4).ph_right ≠ 0 →
      ph_parent (ph_replace_node 4 16 C8st).heap (C8st.heap 4).ph_right = 16 ∧
      agreeOn C8st.heap (ph_replace_node 4 16 C8st).heap (C8st.heap 4).ph_right) ∧
    (∀ b, b ≠ 16 → b ≠ (C8st.heap 4).ph_left → b ≠ (C8st.heap 4).ph_right →
      b ≠ ph_parent C8st.heap 4 →
      (ph_replace_node 4 16 C8st).heap b = C8st.heap b) :=
  claim_C8_replace_node C8st 4 16 [] .black (.node .red .nil 8 .nil)
    (.node .red .nil 12 .nil)
    (ReprT.node 4 .black (.node .red .nil 8 .nil) (.node .red .nil 12 .nil)
      (by decide)
      (ReprT.node 8 .red .nil .nil (by decide) ReprT.nil ReprT.nil (by decide))
      (ReprT.node 12 .red .nil .nil (by decide) ReprT.nil ReprT.nil (by decide))
      (by decide))
    (by decide) (by decide) (by decide) (by decide) (by decide)

end Phtree
